import Mathlib

/-!
Verification development for the fugu-py device-communication engine.

The Python source is shallowly embedded:
* text lines are `List Char` (bytes on this wire are UTF-8 text; the ANSI
  escape checks operate on the same character sequence);
* the Python `re` patterns are embedded as a small regex AST with a
  backtracking matcher that mirrors CPython's leftmost, greedy-priority
  semantics for the constructs these patterns use;
* the background receive loop body (`FuguDevice._recv_loop`, one line per
  iteration) is a pure step function on an explicit device state;
* `FuguDevice.command_ack` is modelled over a scripted schedule of queue
  arrivals, one batch per 100 ms polling round;
* `SocketTransport.check_connection` is modelled over the elapsed time
  since last activity and an abstract outcome of the non-blocking peek;
* `FuguDevice.set_D` is modelled as the list of values written.

Python `float(...)` values that are only stored, never computed with
(voltages, temperatures), are carried as their captured source text.
-/

/-- Characters treated as whitespace by Python `str.strip()` and `\s`
(ASCII range): space, tab, newline, carriage return, vertical tab, form feed. -/
def pyWs (c : Char) : Bool :=
  c == ' ' || c == '\t' || c == '\n' || c == '\r' ||
  c == Char.ofNat 11 || c == Char.ofNat 12

/-- Python `str.strip()`: drop leading and trailing whitespace. -/
def pyStrip (l : List Char) : List Char :=
  ((l.dropWhile pyWs).reverse.dropWhile pyWs).reverse

/-- Python substring containment `pat in s`, as a decidable proposition via
list infixes. -/
def strIn (pat s : List Char) : Prop := pat <:+: s

instance (pat s : List Char) : Decidable (strIn pat s) :=
  List.decidableInfix pat s

/-- The apostrophe character, written without a quote literal. -/
def qc : Char := Char.ofNat 39

/-- ASCII escape character (0x1b). -/
def escC : Char := Char.ofNat 27

/-! ## A regex AST and backtracking matcher

Mirrors the CPython `re` behaviour of the two patterns in `fugu.py`
(`RE_PWM` and the `get_conf_value` pattern): alternation prefers the left
branch, `*`/`+` are greedy, `search` tries start positions left to right,
`match` is anchored at the start, and a named group records the text of
its last successful participation. -/

inductive RE where
  | eps : RE
  | cls (p : Char → Bool) : RE
  | seq (a b : RE) : RE
  | alt (a b : RE) : RE
  | star (a : RE) : RE
  | group (i : Nat) (a : RE) : RE

/-- Capture environment: latest binding of each group index wins. -/
abbrev Caps := List (Nat × List Char)

def setCap (caps : Caps) (i : Nat) (v : List Char) : Caps := (i, v) :: caps

/-- Python `m.groupdict().get(name, dflt)` / `d[name]`. -/
def getCapD (caps : Caps) (i : Nat) (dflt : List Char) : List Char :=
  match List.find? (fun x => x.1 == i) caps with
  | some x => x.2
  | none => dflt

/-- Backtracking matcher in continuation style.  `k` receives the unread
rest of the input and the captures.  Greedy constructs try the longer
consumption first, as CPython does.  The fuel only bounds the recursion;
it is chosen large enough at every call site that it never runs out on
the inputs evaluated by the theorems below (running out can only turn a
match into a non-match, never the reverse). -/
def matchRE : Nat → RE → List Char → Caps → (List Char → Caps → Option Caps) → Option Caps
  | 0, _, _, _, _ => none
  | Nat.succ _, .eps, s, caps, k => k s caps
  | Nat.succ _, .cls _, [], _, _ => none
  | Nat.succ _, .cls p, c :: s, caps, k => if p c then k s caps else none
  | Nat.succ f, .seq a b, s, caps, k =>
      matchRE f a s caps (fun s1 c1 => matchRE f b s1 c1 k)
  | Nat.succ f, .alt a b, s, caps, k =>
      match matchRE f a s caps k with
      | some r => some r
      | none => matchRE f b s caps k
  | Nat.succ f, .star a, s, caps, k =>
      match matchRE f a s caps
          (fun s1 c1 =>
            if s1.length < s.length then matchRE f (.star a) s1 c1 k else none) with
      | some r => some r
      | none => k s caps
  | Nat.succ f, .group i a, s, caps, k =>
      matchRE f a s caps
        (fun s1 c1 => k s1 (setCap c1 i (s.take (s.length - s1.length))))

/-- Python `pattern.match(s)`: anchored at the start, need not reach the end. -/
def reMatch (f : Nat) (r : RE) (s : List Char) : Option Caps :=
  matchRE f r s [] (fun _ c => some c)

/-- Python `pattern.search(s)`: earliest start position that matches. -/
def reSearch (f : Nat) (r : RE) : List Char → Option Caps
  | [] => reMatch f r []
  | c :: t =>
      match reMatch f r (c :: t) with
      | some caps => some caps
      | none => reSearch f r t

/-- Right-nested sequence of a list of regexes. -/
def cat : List RE → RE := List.foldr RE.seq RE.eps

/-- Single literal character. -/
def lit (c : Char) : RE := .cls (fun x => x == c)

/-- A string of literal characters, as a list of single-char regexes. -/
def lits (s : List Char) : List RE := s.map lit

def plusRE (r : RE) : RE := .seq r (.star r)

def optRE (r : RE) : RE := .alt r .eps

/-- Character classes used by the patterns. -/
def wsRE : RE := .cls pyWs

/-- Python `.` (no DOTALL): any character except newline. -/
def dotRE : RE := .cls (fun c => !(c == '\n'))

def digitRE : RE := .cls Char.isDigit

/-- Python class `[0-9.]`. -/
def numDotRE : RE := .cls (fun c => c.isDigit || c == '.')

/-! ## The telemetry grammar `RE_PWM` (fugu.py lines 15-21)

Named groups are numbered: vin 1, vout 2, tmp_ntc 3, tmp_mcu 4, mode 5,
ctrl 6, sync 7, sync_max 8, rssi 9.  The two unnamed groups of the source
pattern (the wattage `([0-9.]+)` and the inner exponent group of
`r_float`) are never read by the code, so they are embedded without a
capture wrapper. -/

/-- Python `r_float = (\d+\.?\d*(e\d+\.?\d*)?|nan)`, without its outer
group wrapper (the caller wraps it in a named group). -/
def reFloat : RE :=
  .alt
    (cat [plusRE digitRE, optRE (lit '.'), .star digitRE,
          optRE (cat [lit 'e', plusRE digitRE, optRE (lit '.'), .star digitRE])])
    (cat (lits "nan".data))

/-- The compiled `RE_PWM` pattern:
`V=\s*(?P<vin>[0-9.]+)\s*/\s*(?P<vout>[0-9.]+).+([0-9.]+)W (?P<tmp_ntc>float)℃(?P<tmp_mcu>float)℃\s.*(?P<mode>[CD]CM)\(H\|L\|Lm\)=\s*(?P<ctrl>[0-9]+)\|\s*(?P<sync>[0-9]+)\|\s*(?P<sync_max>[0-9]+)\s.+rssi=\s*(?P<rssi>-?[0-9]+)` -/
def rePWM : RE :=
  cat (lits "V=".data
    ++ [.star wsRE, .group 1 (plusRE numDotRE), .star wsRE, lit '/',
        .star wsRE, .group 2 (plusRE numDotRE),
        plusRE dotRE,
        plusRE numDotRE]
    ++ lits "W ".data
    ++ [.group 3 reFloat, lit '℃', .group 4 reFloat, lit '℃',
        wsRE, .star dotRE,
        .group 5 (cat [.cls (fun c => c == 'C' || c == 'D'), lit 'C', lit 'M'])]
    ++ lits "(H|L|Lm)=".data
    ++ [.star wsRE, .group 6 (plusRE digitRE), lit '|',
        .star wsRE, .group 7 (plusRE digitRE), lit '|',
        .star wsRE, .group 8 (plusRE digitRE),
        wsRE, plusRE dotRE]
    ++ lits "rssi=".data
    ++ [.star wsRE, .group 9 (cat [optRE (lit '-'), plusRE digitRE])])

/-- Python `int()` on a nonneg decimal digit string. -/
def parseNatChars (l : List Char) : Nat :=
  l.foldl (fun a c => a * 10 + (c.toNat - 48)) 0

/-- Python `int()` on an optionally `-`-signed decimal string. -/
def parseIntChars (l : List Char) : Int :=
  match l with
  | c :: t => if c == '-' then -(parseNatChars t : Int) else (parseNatChars l : Int)
  | [] => 0

/-- `PwmState` (fugu.py lines 34-50): `__eq__`/`__ne__` compare exactly the
four fields, which `DecidableEq` structural equality reproduces. -/
structure PwmState where
  ccm : Option Bool
  pwm_ctrl : Int
  pwm_sync : Int
  pwm_sync_max : Int
deriving DecidableEq

/-- The data extracted from one matched telemetry line (fugu.py lines
142-149).  Voltages and temperatures keep their captured source text:
the code only stores their `float(...)` images and never computes with
them. -/
structure Telemetry where
  vin : List Char
  vout : List Char
  tmp_ntc : List Char
  tmp_mcu : List Char
  pwm : PwmState
  rssi : Int
deriving DecidableEq

/-- Fuel that is far more than the backtracking matcher can consume on the
lines the development evaluates. -/
def pwmFuel (s : List Char) : Nat := (s.length + 100) * (s.length + 100) * (s.length + 100)

/-- `RE_PWM.search(rx)` followed by the group extraction of fugu.py lines
142-149.  The defaults mirror the source: `d.get('rssi', 0)` and
`d.get(..., nan)` for the floats; the directly indexed groups
(`mode`/`ctrl`/`sync`/`sync_max`) always participate in a match, so their
defaults here are unreachable. -/
def parsePwm (rx : List Char) : Option Telemetry :=
  match reSearch (pwmFuel rx) rePWM rx with
  | none => none
  | some caps =>
      some { vin := getCapD caps 1 "nan".data
             vout := getCapD caps 2 "nan".data
             tmp_ntc := getCapD caps 3 "nan".data
             tmp_mcu := getCapD caps 4 "nan".data
             pwm := { ccm := some (getCapD caps 5 [] == "CCM".data)
                      pwm_ctrl := (parseNatChars (getCapD caps 6 "0".data) : Int)
                      pwm_sync := (parseNatChars (getCapD caps 7 "0".data) : Int)
                      pwm_sync_max := (parseNatChars (getCapD caps 8 "0".data) : Int) }
             rssi := parseIntChars (getCapD caps 9 "0".data) }

/-! ## Device state and the receive-loop step (fugu.py lines 114-163)

One iteration of `_recv_loop` handling a successfully read and decoded
line is a pure step function.  The three observable sinks (queue, replay
ring, push callback) plus the log/print emissions are recorded as lists;
the callback log collects the arguments the loop passes to
`self.on_message` when one is registered. -/

/-- Words whose presence escalates a line to warning severity
(fugu.py lines 132-133). -/
def alarmWords : List (List Char) :=
  ["shutdown".data, "error".data, "warn".data, "disabled".data, "enabled".data,
   "failed".data, "reset".data, "boot".data, "backtrace".data, "exception".data]

/-- The ANSI colour marker `b'\x1b[0;33mW '` of fugu.py line 137. -/
def ansiW : List Char := escC :: "[0;33mW ".data

/-- The ANSI colour marker `b'\x1b[0;33mE '` of fugu.py line 137. -/
def ansiE : List Char := escC :: "[0;33mE ".data

/-- The warning-severity condition of fugu.py line 137: an alarm word in
the stripped line, or an ANSI marker in the raw bytes. -/
def isAlarm (rx rxB : List Char) : Bool :=
  alarmWords.any (fun w => decide (strIn w rx)) ||
  decide (strIn ansiW rxB) || decide (strIn ansiE rxB)

/-- The mutable fields of `FuguDevice` that `_recv_loop` touches, plus the
event sinks. -/
structure DevState where
  pwm_state : PwmState
  wifi_rssi : Int
  temperatures : List (List Char)
  voltages : List (List Char)
  ser_deque : List (List Char)
  ser_tail : List (List Char)
  callbackLog : List (List Char)
  warningLog : List (List Char)
  debugLog : List (List Char)
  printLog : List (List Char)
deriving DecidableEq

/-- A fresh `FuguDevice` state (fugu.py lines 66-90): unknown-mode PWM
sentinel, empty queues and sinks. -/
def initialDevState : DevState :=
  { pwm_state := { ccm := none, pwm_ctrl := 0, pwm_sync := 0, pwm_sync_max := 0 }
    wifi_rssi := 0, temperatures := [], voltages := []
    ser_deque := [], ser_tail := [], callbackLog := []
    warningLog := [], debugLog := [], printLog := [] }

/-- Append into `collections.deque(maxlen=20)`: evict oldest once full. -/
def tailAppend (t : List (List Char)) (x : List Char) : List (List Char) :=
  let t2 := t ++ [x]
  if 20 < t2.length then t2.drop (t2.length - 20) else t2

/-- Generic handling of fugu.py lines 156-163: the `ina22x`/`timeout`
noise suppression, then queue append, ring append, callback, debug log. -/
def genericHandle (pfx : List Char) (st : DevState) (rx : List Char) : DevState :=
  if strIn "ina22x".data rx ∧ strIn "timeout".data rx then st
  else
    { st with
        ser_deque := st.ser_deque ++ [rx]
        ser_tail := tailAppend st.ser_tail rx
        callbackLog := st.callbackLog ++ [rx]
        debugLog := st.debugLog ++ ["  ".data ++ pfx ++ "  FUGU: ".data ++ rx] }

/-- The severity classification of fugu.py lines 131-138: when verbose,
print the line verbatim; otherwise emit at warning severity exactly when
an alarm word or ANSI marker is present. -/
def logStage (verbose : Bool) (pfx : List Char) (st : DevState) (rx rxB : List Char) :
    DevState :=
  if verbose then { st with printLog := st.printLog ++ [pfx ++ rx] }
  else if isAlarm rx rxB then
    { st with warningLog := st.warningLog ++ [pfx ++ "Ser: ".data ++ rx] }
  else st

/-- The unconditional snapshot refresh of fugu.py lines 147-149
(rssi/temperatures/voltages; the PWM fields are not touched here). -/
def teleUpdate (st1 : DevState) (t : Telemetry) : DevState :=
  { st1 with
      wifi_rssi := t.rssi
      temperatures := [t.tmp_ntc, t.tmp_mcu]
      voltages := [t.vin, t.vout] }

/-- The telemetry handling and generic forwarding of fugu.py lines
140-163: on a parse, refresh the snapshot fields, then either commit the
changed PWM state and fall through to generic handling, or suppress the
unchanged heartbeat; non-telemetry lines go straight to generic handling. -/
def teleStage (pfx : List Char) (st1 : DevState) (rx : List Char) : DevState :=
  match parsePwm rx with
  | some t =>
      if (teleUpdate st1 t).pwm_state ≠ t.pwm then
        genericHandle pfx { teleUpdate st1 t with pwm_state := t.pwm } rx
      else teleUpdate st1 t
  | none => genericHandle pfx st1 rx

/-- One `_recv_loop` iteration on a decoded line `rxB` (fugu.py lines
117-163): strip, skip if empty, severity classification, telemetry
handling with PWM change detection, noise suppression, generic handling. -/
def processLine (verbose : Bool) (pfx : List Char) (st : DevState) (rxB : List Char) :
    DevState :=
  if pyStrip rxB = [] then st
  else teleStage pfx (logStage verbose pfx st (pyStrip rxB) rxB) (pyStrip rxB)

/-! ## The persisted-configuration query (fugu.py lines 165-171)

`get_conf_value` first runs `command_ack("get-config <file> <key>")`
(modelled separately), then scans the replay ring newest-first with the
anchored pattern `.+: Conf '/littlefs/conf/<file>:<key>' = '(.*)'`,
returning the first capture or `None`. -/

/-- The interpolated configuration-line pattern. -/
def confRE (file key : List Char) : RE :=
  cat ([plusRE dotRE]
    ++ lits (": Conf ".data ++ [qc] ++ "/littlefs/conf/".data ++ file
             ++ ":".data ++ key ++ [qc] ++ " = ".data ++ [qc])
    ++ [.group 1 (.star dotRE), lit qc])

/-- The ring scan of fugu.py lines 167-171. -/
def get_conf_value (file key : List Char) (ser_tail : List (List Char)) :
    Option (List Char) :=
  ser_tail.reverse.findSome? (fun l =>
    match reMatch (pwmFuel l) (confRE file key) l with
    | some caps => some (getCapD caps 1 [])
    | none => none)

/-! ## The command/acknowledgment protocol (fugu.py lines 207-230)

`command_ack` clears the consuming queue, writes the stripped command with
a newline, then runs `for _ in range(1, 20)` — 19 polling rounds.  In
each round it drains whatever has arrived, returning success on the first
drained line whose stripped text contains `"OK: " + cmd.strip()`, and
sleeps 100 ms.  After the rounds it flushes any still-queued lines to the
warning log and raises with the last drained line and the command.

Concurrency is scripted: `rounds` gives the batch of lines that have
arrived by each round's drain (a schedule longer than 19 batches is cut
off, shorter ones are padded with empty batches, exactly as the fixed
19-round loop would see it); `late` gives the lines that arrive after the
last drain and before the flush. -/

/-- Drain one round's arrivals (the inner `while len(ser_deque)` loop of
fugu.py lines 216-219), threading the last-popped line `l`.  Returns
whether a line matched, the arrivals left unread at that point, and the
last line popped. -/
def drainRound (okResp : List Char) : List (List Char) → List Char →
    Bool × List (List Char) × List Char
  | [], l => (false, [], l)
  | x :: xs, _ =>
      if strIn okResp (pyStrip x) then (true, xs, x)
      else drainRound okResp xs x

/-- The 19-round polling loop of fugu.py lines 215-220.  On success the
undrained remainder of the matching round is returned; otherwise the last
line seen across all rounds. -/
def pollRounds (okResp : List Char) : List (List (List Char)) → List Char →
    Bool × List (List Char) × List Char
  | [], l => (false, [], l)
  | q :: qs, l =>
      match drainRound okResp q l with
      | (true, rest, l2) => (true, rest, l2)
      | (false, _, l2) => pollRounds okResp qs l2

/-- Observable outcome of one `command_ack` call. -/
structure AckRun where
  written : List Char
  ok : Bool
  lastLine : List Char
  errMsg : Option (List Char)
  flushedWarnings : List (List Char)
  queueAfter : List (List Char)
deriving DecidableEq

/-- The timeout message of fugu.py line 228,
`f"unexpected serial response '{l}' for command '{cmd}"`
(the source f-string lacks the closing quote). -/
def ackErrMsg (l cmd : List Char) : List Char :=
  "unexpected serial response ".data ++ [qc] ++ l ++ [qc]
    ++ " for command ".data ++ [qc] ++ cmd

/-- `FuguDevice.command_ack` (fugu.py lines 207-230) over a scripted
arrival schedule.  The initial `ser_deque.clear()` is implicit: pre-call
stale lines are simply not part of the schedule. -/
def command_ack (cmd : List Char) (rounds : List (List (List Char)))
    (late : List (List Char)) : AckRun :=
  match pollRounds ("OK: ".data ++ pyStrip cmd) ((rounds ++ List.replicate 19 []).take 19) [] with
  | (true, rest, l) =>
      { written := pyStrip cmd ++ "\n".data, ok := true, lastLine := l, errMsg := none
        flushedWarnings := [], queueAfter := rest }
  | (false, _, l) =>
      { written := pyStrip cmd ++ "\n".data, ok := false, lastLine := l
        errMsg := some (ackErrMsg l cmd)
        flushedWarnings := late, queueAfter := [] }

/-! ## The socket link-health check (fugu.py has none; transport.py lines 90-111)

`check_connection` is modelled over the elapsed seconds since
`t_last_comm` and an abstract outcome of the non-blocking
`MSG_DONTWAIT | MSG_PEEK` read. -/

/-- Outcome of the non-blocking peek `self.sock.recv(16, ...)`. -/
inductive PeekResult where
  | bytes (n : Nat) : PeekResult
  | wouldBlock : PeekResult
  | connReset : PeekResult
  | osError : PeekResult
  | otherError : PeekResult
deriving DecidableEq

/-- What a `check_connection` call returns and whether it called
`self.close()` on the way. -/
structure CheckOutcome where
  alive : Bool
  closedTransport : Bool
deriving DecidableEq

/-- `SocketTransport.check_connection` (transport.py lines 90-111). -/
def check_connection (elapsed : ℚ) (peek : PeekResult) : CheckOutcome :=
  if elapsed < 2 then { alive := true, closedTransport := false }
  else
    match peek with
    | .bytes n =>
        if n = 0 then { alive := true, closedTransport := false }
        else { alive := true, closedTransport := false }
    | .connReset => { alive := false, closedTransport := true }
    | .wouldBlock => { alive := true, closedTransport := false }
    | .osError => { alive := false, closedTransport := false }
    | .otherError => { alive := true, closedTransport := false }

/-! ## The PWM ramp (fugu.py lines 182-199)

`set_D` repeatedly steps `pwm_ctrl` toward the target and writes
`dc <value>\n` after each step.  The loop is embedded twice:

* `set_D_steps` is the idealised integer recurrence (exact arithmetic);
  it is total by well-founded recursion on `|t - p|`.
* `set_D_py` is the faithful embedding: Python's `/` on line 191 is float
  true division, so `delta` — and from then on `pwm_ctrl` — is a binary64
  float.  `PyVal` mirrors CPython's int/float numerics (exact ints,
  round-to-nearest-even doubles), and the loop is modelled with explicit
  fuel because the real loop need not terminate: a target that is not
  representable as a double can never compare equal to the float
  `pwm_ctrl`, and once `delta` rounds to `0.0` the state stops moving.
  The two models agree while every value stays well inside `2 ^ 53`. -/

/-- One loop iteration's `delta` (fugu.py lines 188-191) in the idealised
integer model: the raw distance, clamped to
`max_step * delta / abs(delta)` when the target is nonzero and the
distance exceeds `max_step = 10`.  Whenever the division runs its
mathematical value is exactly `±10`, so integer division expresses it. -/
def stepDelta (p t : Int) : Int :=
  if t ≠ 0 ∧ 10 < |t - p| then 10 * (t - p) / |t - p| else t - p

def set_D_steps (p t : Int) : List Int :=
  if p = t then []
  else (p + stepDelta p t) :: set_D_steps (p + stepDelta p t) t
termination_by (t - p).natAbs
decreasing_by
  rename_i h
  unfold stepDelta
  by_cases hc : t ≠ 0 ∧ 10 < |t - p|
  · rw [if_pos hc]
    have hd0 : t - p ≠ 0 := by omega
    have hdiv : 10 * (t - p) / |t - p| = if 0 < t - p then 10 else -10 := by
      rcases lt_trichotomy (t - p) 0 with hn | hz | hp2
      · rw [abs_of_neg hn]
        have h2 : (10 : Int) * (t - p) = (-10) * (-(t - p)) := by ring
        rw [h2, Int.mul_ediv_cancel _ (by omega)]
        simp [not_lt.mpr (le_of_lt hn)]
      · exact absurd hz hd0
      · rw [abs_of_pos hp2, Int.mul_ediv_cancel _ (by omega), if_pos hp2]
    rw [hdiv]
    have habs := Int.abs_eq_natAbs (t - p)
    rcases hc with ⟨_, h10⟩
    rw [habs] at h10
    by_cases hp : 0 < t - p
    · rw [if_pos hp]; omega
    · rw [if_neg hp]; omega
  · rw [if_neg hc]; omega

/-! ### Binary64 float semantics for the ramp loop

Finite IEEE-754 binary64 values are pairs `m * 2 ^ e` (`Fp`); rounding is
round-to-nearest, ties to even, over exact integer arithmetic.  The model
covers the finite range (subnormals clamp at exponent `-1074`); overflow
to infinity and division by zero are outside every magnitude the ramp
reaches here and are not modelled. -/

/-- Bit length of a natural number (`n.bit_length()`), fuel-bounded so it
evaluates in the kernel; the fuel 4096 covers every number this
development touches. -/
def bitLenAux : Nat → Nat → Nat
  | 0, _ => 0
  | f + 1, n => if n = 0 then 0 else bitLenAux f (n / 2) + 1

def bitLen (n : Nat) : Nat := bitLenAux 4096 n

/-- A finite binary64 value `m * 2 ^ e` (not necessarily normalised). -/
structure Fp where
  m : Int
  e : Int
deriving DecidableEq

/-- IEEE negation is exact. -/
def fpNegF (f : Fp) : Fp := ⟨-f.m, f.e⟩

/-- Round the nonnegative rational `num / den` to the nearest integer,
ties to even. -/
def roundNE (num den : Nat) : Nat :=
  if den < 2 * (num % den) ∨ (2 * (num % den) = den ∧ num / den % 2 = 1) then
    num / den + 1
  else num / den

/-- The mantissa obtained by rounding `n / d` at exponent `e`, i.e. the
nearest-even integer to `n / (d * 2 ^ e)`. -/
def fpRoundPosAt (n d : Nat) (e : Int) : Nat :=
  if 0 ≤ e then roundNE n (d * 2 ^ e.toNat) else roundNE (n * 2 ^ (-e).toNat) d

/-- Round `n / d` at exponent `e`, moving up one exponent when the
mantissa carries past `2 ^ 53`. -/
def fpRoundPosE (n d : Nat) (e : Int) : Fp :=
  if 2 ^ 53 ≤ fpRoundPosAt n d e then ⟨(fpRoundPosAt n d (e + 1) : Nat), e + 1⟩
  else ⟨(fpRoundPosAt n d e : Nat), e⟩

/-- Round the positive rational `n / d` to binary64: the exponent places
the 53-bit mantissa window, clamped at `-1074` for subnormals. -/
def fpRoundPos (n d : Nat) : Fp :=
  fpRoundPosE n d (max (-1074) ((bitLen n : Int) - (bitLen d : Int) - 53))

/-- Round the rational `n / d` (`d > 0`) to binary64. -/
def fpRound (n : Int) (d : Nat) : Fp :=
  if n = 0 ∨ d = 0 then ⟨0, 0⟩
  else if 0 < n then fpRoundPos n.natAbs d
  else fpNegF (fpRoundPos n.natAbs d)

/-- Round `n / dd` for a signed denominator. -/
def fpRoundS (n dd : Int) : Fp :=
  if dd < 0 then fpRound (-n) dd.natAbs else fpRound n dd.natAbs

/-- Round the exact dyadic value `m * 2 ^ e` to binary64. -/
def fpOfDyadic (m e : Int) : Fp :=
  if 0 ≤ e then fpRound (m * 2 ^ e.toNat) 1 else fpRound m (2 ^ (-e).toNat)

/-- CPython int-to-double conversion (`PyLong_AsDouble`): correctly
rounded. -/
def fpOfInt (n : Int) : Fp := fpRound n 1

/-- IEEE addition: the exact sum (aligned to the smaller exponent),
rounded once. -/
def fpAdd (a b : Fp) : Fp :=
  fpOfDyadic (a.m * 2 ^ (a.e - min a.e b.e).toNat + b.m * 2 ^ (b.e - min a.e b.e).toNat)
    (min a.e b.e)

/-- IEEE subtraction is addition of the exact negation. -/
def fpSub (a b : Fp) : Fp := fpAdd a (fpNegF b)

/-- IEEE multiplication by a small exact constant: exact product, rounded
once. -/
def fpMulNat (c : Nat) (a : Fp) : Fp := fpOfDyadic (c * a.m) a.e

/-- IEEE division: the exact rational quotient, rounded once. -/
def fpDiv (a b : Fp) : Fp :=
  if 0 ≤ a.e - b.e then fpRoundS (a.m * 2 ^ (a.e - b.e).toNat) b.m
  else fpRoundS a.m (b.m * 2 ^ (b.e - a.e).toNat)

/-- Truncation toward zero (`int(f)`, used by `%d` formatting). -/
def fpTrunc (f : Fp) : Int :=
  if 0 ≤ f.e then f.m * 2 ^ f.e.toNat else f.m.tdiv (2 ^ (-f.e).toNat)

/-- Python float-int comparison is exact: `m * 2 ^ e = c`. -/
def fpEqInt (f : Fp) (c : Int) : Bool :=
  if 0 ≤ f.e then decide (f.m * 2 ^ f.e.toNat = c) else decide (f.m = c * 2 ^ (-f.e).toNat)

/-- Exact comparison `c < m * 2 ^ e`. -/
def fpLtIntF (c : Int) (f : Fp) : Bool :=
  if 0 ≤ f.e then decide (c < f.m * 2 ^ f.e.toNat) else decide (c * 2 ^ (-f.e).toNat < f.m)

/-- A Python number: `int` (exact) or `float` (binary64).  `pwm_ctrl`
starts as the int from `PwmState` and becomes a float the first time
the clamped `delta` (a float, fugu.py line 191) is added to it. -/
inductive PyVal where
  | int : Int → PyVal
  | float : Fp → PyVal
deriving DecidableEq

/-- `abs(delta)` (exact for both int and float). -/
def pyAbs : PyVal → PyVal
  | .int n => .int |n|
  | .float f => .float ⟨|f.m|, f.e⟩

/-- `delta > c` against an int literal (exact mixed comparison). -/
def pyGtInt (p : PyVal) (c : Int) : Bool :=
  match p with
  | .int n => decide (c < n)
  | .float f => fpLtIntF c f

/-- The loop guard `pwm_ctrl != pwm_cnt` (exact mixed comparison). -/
def pyNeInt (p : PyVal) (c : Int) : Bool :=
  match p with
  | .int n => decide (n ≠ c)
  | .float f => !fpEqInt f c

/-- `pwm_cnt - pwm_ctrl` (fugu.py line 188): int minus int is exact;
int minus float converts the int to a double, then subtracts with one
rounding. -/
def pySubIntP (t : Int) (p : PyVal) : PyVal :=
  match p with
  | .int n => .int (t - n)
  | .float f => .float (fpSub (fpOfInt t) f)

/-- `max_step * delta` with `max_step = 10` (10 is exactly
representable, so the float case is one rounding of the exact product). -/
def pyMulTen : PyVal → PyVal
  | .int n => .int (10 * n)
  | .float f => .float (fpMulNat 10 f)

/-- Python true division `/`: always produces a float.  `int / int` is
the correctly rounded exact quotient; a float operand forces the other
side to a double first. -/
def pyDiv (a b : PyVal) : PyVal :=
  match a, b with
  | .int x, .int y => .float (fpRoundS x y)
  | .int x, .float g => .float (fpDiv (fpOfInt x) g)
  | .float f, .int y => .float (fpDiv f (fpOfInt y))
  | .float f, .float g => .float (fpDiv f g)

/-- `pwm_ctrl += delta` (fugu.py line 192). -/
def pyAdd (a b : PyVal) : PyVal :=
  match a, b with
  | .int x, .int y => .int (x + y)
  | .int x, .float g => .float (fpAdd (fpOfInt x) g)
  | .float f, .int y => .float (fpAdd f (fpOfInt y))
  | .float f, .float g => .float (fpAdd f g)

/-- The integer written by `b'dc %d\n' % pwm_ctrl` (line 193): `%d`
truncates a float toward zero. -/
def pyTruncVal : PyVal → Int
  | .int n => n
  | .float f => fpTrunc f

/-- One iteration's `delta` under Python numerics (fugu.py lines
188-191). -/
def pyStepDelta (t : Int) (p : PyVal) : PyVal :=
  if t ≠ 0 ∧ pyGtInt (pyAbs (pySubIntP t p)) 10 = true then
    pyDiv (pyMulTen (pySubIntP t p)) (pyAbs (pySubIntP t p))
  else pySubIntP t p

/-- One iteration's `pwm_ctrl += delta` (line 192). -/
def pyStepCtrl (t : Int) (p : PyVal) : PyVal := pyAdd p (pyStepDelta t p)

/-- The `while pwm_ctrl != pwm_cnt` loop (fugu.py lines 187-194) under
Python numerics, with explicit fuel: `some writes` when the guard goes
false within `fuel` iterations, `none` when the loop is still running. -/
def set_D_py : Nat → Int → PyVal → Option (List Int)
  | 0, t, p => if pyNeInt p t then none else some []
  | fuel + 1, t, p =>
      if pyNeInt p t then
        (set_D_py fuel t (pyStepCtrl t p)).map (fun l => pyTruncVal (pyStepCtrl t p) :: l)
      else some []

/-- The values written in the first `fuel` iterations, whether or not the
loop has exited. -/
def set_D_writes : Nat → Int → PyVal → List Int
  | 0, _, _ => []
  | fuel + 1, t, p =>
      if pyNeInt p t then
        pyTruncVal (pyStepCtrl t p) :: set_D_writes fuel t (pyStepCtrl t p)
      else []

/-- The canonical binary64 representation of a positive integer below
`2 ^ 53`: mantissa shifted into `[2 ^ 52, 2 ^ 53)`. -/
def fpCanonPos (v : Nat) : Fp :=
  ⟨((v * 2 ^ (53 - bitLen v) : Nat) : Int), (bitLen v : Int) - 53⟩

/-- The canonical binary64 representation of an integer `|v| < 2 ^ 53`. -/
def fpCanon (v : Int) : Fp :=
  if v = 0 then ⟨0, 0⟩
  else if 0 < v then fpCanonPos v.natAbs
  else fpNegF (fpCanonPos v.natAbs)

/-- `p` holds the integer `v` exactly, either as a Python int or as the
canonical double. -/
def pyIsInt (p : PyVal) (v : Int) : Prop :=
  match p with
  | .int n => n = v
  | .float f => f = fpCanon v

/-- The loop never exits, at any fuel. -/
def set_D_diverges (t : Int) (p : PyVal) : Prop := ∀ fuel, set_D_py fuel t p = none

/-! ## Derived predicates and concrete fixtures used by the claims -/

/-- One ramp step moves at most `max_step = 10` and strictly toward the
target without overshooting. -/
def stepToward (t a b : Int) : Prop :=
  (b - a).natAbs ≤ 10 ∧ (a < t → a < b ∧ b ≤ t) ∧ (t < a → t ≤ b ∧ b < a)

/-- Whether a stripped line reaches the generic handling of fugu.py lines
159-163 (append/ring/callback/debug): it is either non-telemetry or
telemetry with a changed PWM state, and it is not `ina22x`/`timeout`
noise. -/
def reachesGeneric (st : DevState) (rx : List Char) : Bool :=
  (match parsePwm rx with
   | some t => decide (st.pwm_state ≠ t.pwm)
   | none => true)
  && !(decide (strIn "ina22x".data rx) && decide (strIn "timeout".data rx))

/-- A minimal well-formed telemetry line. -/
def teleLineA : List Char := "V=1/2 3W 4℃5℃ CCM(H|L|Lm)= 6| 7| 8 a rssi=9".data

/-- The snapshot `RE_PWM` extracts from `teleLineA`. -/
def teleSnapA : Telemetry :=
  { vin := "1".data, vout := "2".data, tmp_ntc := "4".data, tmp_mcu := "5".data
    pwm := { ccm := some true, pwm_ctrl := 6, pwm_sync := 7, pwm_sync_max := 8 }
    rssi := 9 }

/-- A telemetry heartbeat with the same PWM fields as `teleLineA` but
different voltages/temperatures/rssi. -/
def teleLineB : List Char := "V=9/8 7W 6℃5℃ CCM(H|L|Lm)= 6| 7| 8 a rssi=0".data

/-- The snapshot `RE_PWM` extracts from `teleLineB`. -/
def teleSnapB : Telemetry :=
  { vin := "9".data, vout := "8".data, tmp_ntc := "6".data, tmp_mcu := "5".data
    pwm := { ccm := some true, pwm_ctrl := 6, pwm_sync := 7, pwm_sync_max := 8 }
    rssi := 0 }

/-- A well-formed telemetry line that also carries the `ina22x`/`timeout`
noise tokens (inside the free-text `.+` region of the grammar). -/
def noiseTeleLine : List Char :=
  "V=1/2 ina22x timeout 3W 4℃5℃ CCM(H|L|Lm)= 6| 7| 8 a rssi=9".data

/-- A device state whose PWM fields agree with `teleLineA`/`teleLineB`. -/
def devA : DevState :=
  { initialDevState with
      pwm_state := { ccm := some true, pwm_ctrl := 6, pwm_sync := 7, pwm_sync_max := 8 } }

/-- The exact line quoted by the config-query claim:
`Conf '/littlefs/conf/net:ssid' = 'home'` with no prefix before `Conf`. -/
def confLineBare : List Char :=
  "Conf ".data ++ [qc] ++ "/littlefs/conf/net:ssid".data ++ [qc]
    ++ " = ".data ++ [qc] ++ "home".data ++ [qc]

/-- A config reply line as the device actually prints it: a log prefix
ending in `: ` before `Conf`, with value `v`. -/
def confLinePre (v : List Char) : List Char :=
  "I conf: Conf ".data ++ [qc] ++ "/littlefs/conf/net:ssid".data ++ [qc]
    ++ " = ".data ++ [qc] ++ v ++ [qc]

/-! ## Helper lemmas -/

theorem dropWhile_eq_cons_head {p : Char → Bool} {l t : List Char} {c : Char}
    (h : l.dropWhile p = c :: t) : p c = false := by
  induction l with
  | nil => simp [List.dropWhile] at h
  | cons a l ih =>
    rw [List.dropWhile_cons] at h
    by_cases hpa : p a
    · exact ih (by rwa [if_pos hpa] at h)
    · rw [if_neg hpa] at h
      injection h with h1 _
      rw [← h1]
      exact Bool.eq_false_iff.mpr hpa

theorem infix_append_allP (w : List Char) {tok r : List Char} (hne : tok ≠ [])
    (htok : ∀ c ∈ tok, pyWs c = false) (hw : ∀ c ∈ w, pyWs c = true)
    (h : tok <:+: w ++ r) : tok <:+: r := by
  induction w with
  | nil => simpa using h
  | cons a w ih =>
    apply ih (fun c hc => hw c (List.mem_cons_of_mem a hc))
    obtain ⟨u, v, huv⟩ := h
    cases u with
    | nil =>
      cases tok with
      | nil => exact absurd rfl hne
      | cons c tokT =>
        simp only [List.nil_append, List.cons_append] at huv
        injection huv with h1 _
        have hf : pyWs c = false := htok c (List.mem_cons_self c tokT)
        have ht : pyWs a = true := hw a (List.mem_cons_self a w)
        rw [h1] at hf
        rw [hf] at ht
        exact absurd ht (by simp)
    | cons b u =>
      simp only [List.cons_append] at huv
      injection huv with _ h2
      exact ⟨u, v, h2⟩

theorem strIn_pyStrip {tok s : List Char} (hne : tok ≠ [])
    (htok : ∀ c ∈ tok, pyWs c = false) (h : strIn tok s) : strIn tok (pyStrip s) := by
  unfold strIn at h ⊢
  unfold pyStrip
  have h1 : tok <:+: s.dropWhile pyWs := by
    apply infix_append_allP (s.takeWhile pyWs) hne htok
      (fun c hc => List.mem_takeWhile_imp hc)
    rw [List.takeWhile_append_dropWhile]
    exact h
  have h3 : tok.reverse <:+: (s.dropWhile pyWs).reverse.dropWhile pyWs := by
    apply infix_append_allP ((s.dropWhile pyWs).reverse.takeWhile pyWs)
      (by simpa using hne) (fun c hc => htok c (List.mem_reverse.mp hc))
      (fun c hc => List.mem_takeWhile_imp hc)
    rw [List.takeWhile_append_dropWhile]
    exact h1.reverse
  have h4 := h3.reverse
  simpa using h4

theorem pyStrip_idem (l : List Char) : pyStrip (pyStrip l) = pyStrip l := by
  unfold pyStrip
  have hPA : ((l.dropWhile pyWs).reverse.dropWhile pyWs).reverse
      ++ ((l.dropWhile pyWs).reverse.takeWhile pyWs).reverse = l.dropWhile pyWs := by
    rw [← List.reverse_append, List.takeWhile_append_dropWhile, List.reverse_reverse]
  have hstep1 : ((l.dropWhile pyWs).reverse.dropWhile pyWs).reverse.dropWhile pyWs
      = ((l.dropWhile pyWs).reverse.dropWhile pyWs).reverse := by
    cases hBR : ((l.dropWhile pyWs).reverse.dropWhile pyWs).reverse with
    | nil => simp
    | cons c t =>
      rw [hBR] at hPA
      have hcA : l.dropWhile pyWs
          = c :: (t ++ ((l.dropWhile pyWs).reverse.takeWhile pyWs).reverse) := by
        rw [← List.cons_append]
        exact hPA.symm
      have hc : pyWs c = false := dropWhile_eq_cons_head hcA
      rw [List.dropWhile_cons, if_neg (by simp [hc])]
  rw [hstep1, List.reverse_reverse]
  have hstep2 : ((l.dropWhile pyWs).reverse.dropWhile pyWs).dropWhile pyWs
      = (l.dropWhile pyWs).reverse.dropWhile pyWs := by
    cases hBc : (l.dropWhile pyWs).reverse.dropWhile pyWs with
    | nil => simp
    | cons c t =>
      have hc : pyWs c = false := dropWhile_eq_cons_head hBc
      rw [List.dropWhile_cons, if_neg (by simp [hc])]
  rw [hstep2]

theorem drainRound_fst_iff (ok : List Char) (q : List (List Char)) (l : List Char) :
    (drainRound ok q l).1 = true ↔ ∃ x ∈ q, strIn ok (pyStrip x) := by
  induction q generalizing l with
  | nil => simp [drainRound]
  | cons x xs ih =>
    by_cases hx : strIn ok (pyStrip x)
    · rw [drainRound, if_pos hx]
      constructor
      · intro _
        exact ⟨x, List.mem_cons_self x xs, hx⟩
      · intro _
        rfl
    · rw [drainRound, if_neg hx, ih]
      simp only [List.mem_cons]
      constructor
      · rintro ⟨y, hy, h2⟩
        exact ⟨y, Or.inr hy, h2⟩
      · rintro ⟨y, hy | hy, h2⟩
        · exact absurd (hy ▸ h2) hx
        · exact ⟨y, hy, h2⟩

theorem pollRounds_fst_iff (ok : List Char) (rs : List (List (List Char))) (l : List Char) :
    (pollRounds ok rs l).1 = true ↔ ∃ q ∈ rs, ∃ x ∈ q, strIn ok (pyStrip x) := by
  induction rs generalizing l with
  | nil => simp [pollRounds]
  | cons q qs ih =>
    rw [pollRounds]
    rcases hd : drainRound ok q l with ⟨b, rest, l2⟩
    cases b
    · have hq : ¬ ∃ x ∈ q, strIn ok (pyStrip x) := by
        rw [← drainRound_fst_iff ok q l, hd]
        simp
      show (pollRounds ok qs l2).1 = true ↔ _
      rw [ih]
      constructor
      · rintro ⟨r, hr, hx⟩
        exact ⟨r, List.mem_cons_of_mem q hr, hx⟩
      · rintro ⟨r, hr, hx⟩
        rcases List.mem_cons.mp hr with hr2 | hr2
        · exact absurd (hr2 ▸ hx) hq
        · exact ⟨r, hr2, hx⟩
    · show (true, rest, l2).1 = true ↔ _
      constructor
      · intro _
        refine ⟨q, List.mem_cons_self q qs, ?_⟩
        rw [← drainRound_fst_iff ok q l, hd]
      · intro _
        rfl

theorem drainRound_last (ok : List Char) (q : List (List Char)) (l : List Char) :
    (drainRound ok q l).2.2 = l ∨ (drainRound ok q l).2.2 ∈ q := by
  induction q generalizing l with
  | nil => simp [drainRound]
  | cons x xs ih =>
    rw [drainRound]
    by_cases hx : strIn ok (pyStrip x)
    · rw [if_pos hx]
      exact Or.inr (List.mem_cons_self x xs)
    · rw [if_neg hx]
      rcases ih x with h | h
      · refine Or.inr ?_
        rw [h]
        exact List.mem_cons_self x xs
      · exact Or.inr (List.mem_cons_of_mem x h)

theorem pollRounds_last (ok : List Char) (rs : List (List (List Char))) (l : List Char) :
    (pollRounds ok rs l).2.2 = l ∨ (pollRounds ok rs l).2.2 ∈ rs.flatten := by
  induction rs generalizing l with
  | nil => simp [pollRounds]
  | cons q qs ih =>
    rw [pollRounds]
    rcases hd : drainRound ok q l with ⟨b, rest, l2⟩
    have hdl := drainRound_last ok q l
    rw [hd] at hdl
    have hdl2 : l2 = l ∨ l2 ∈ q := hdl
    cases b
    · show (pollRounds ok qs l2).2.2 = l ∨ (pollRounds ok qs l2).2.2 ∈ (q :: qs).flatten
      simp only [List.flatten_cons, List.mem_append]
      rcases ih l2 with h | h
      · rcases hdl2 with h2 | h2
        · exact Or.inl (by rw [h]; exact h2)
        · exact Or.inr (Or.inl (by rw [h]; exact h2))
      · exact Or.inr (Or.inr h)
    · show (true, rest, l2).2.2 = l ∨ (true, rest, l2).2.2 ∈ (q :: qs).flatten
      simp only [List.flatten_cons, List.mem_append]
      rcases hdl2 with h2 | h2
      · exact Or.inl h2
      · exact Or.inr (Or.inl h2)

theorem exists_mem_flatten {α : Type} (rs : List (List α)) (P : α → Prop) :
    (∃ x ∈ rs.flatten, P x) ↔ ∃ q ∈ rs, ∃ x ∈ q, P x := by
  constructor
  · rintro ⟨x, hx, hP⟩
    obtain ⟨q, hq, hxq⟩ := List.mem_flatten.mp hx
    exact ⟨q, hq, x, hxq, hP⟩
  · rintro ⟨q, hq, x, hxq, hP⟩
    exact ⟨x, List.mem_flatten.mpr ⟨q, hq, hxq⟩, hP⟩

theorem strIn_ackErrMsg_left (l cmd : List Char) : strIn l (ackErrMsg l cmd) :=
  ⟨"unexpected serial response ".data ++ [qc],
   [qc] ++ " for command ".data ++ [qc] ++ cmd, by simp [ackErrMsg]⟩

theorem strIn_ackErrMsg_right (l cmd : List Char) : strIn cmd (ackErrMsg l cmd) :=
  ⟨"unexpected serial response ".data ++ [qc] ++ l ++ [qc]
    ++ " for command ".data ++ [qc], [], by simp [ackErrMsg]⟩

/-- C1 (amended): `command_ack(cmd)` clears the queue, writes the
*stripped* command newline-terminated, and polls the queue for up to 19
rounds of 100 ms (the source's `range(1, 20)`); it succeeds exactly when
some drained line's stripped text contains `"OK: " + cmd.strip()`
(earlier drained lines are discarded), and otherwise raises an error
whose message carries the last line seen (the empty string if nothing
was drained) and the original command. -/
theorem c1_command_ack (cmd : List Char) (rounds : List (List (List Char)))
    (late : List (List Char)) :
    (command_ack cmd rounds late).written = pyStrip cmd ++ "\n".data ∧
    ((command_ack cmd rounds late).ok = true ↔
      ∃ x ∈ ((rounds ++ List.replicate 19 []).take 19).flatten,
        strIn ("OK: ".data ++ pyStrip cmd) (pyStrip x)) ∧
    ((command_ack cmd rounds late).ok = false →
      (command_ack cmd rounds late).errMsg
          = some (ackErrMsg (command_ack cmd rounds late).lastLine cmd) ∧
      strIn (command_ack cmd rounds late).lastLine
        (ackErrMsg (command_ack cmd rounds late).lastLine cmd) ∧
      strIn cmd (ackErrMsg (command_ack cmd rounds late).lastLine cmd) ∧
      ((command_ack cmd rounds late).lastLine = [] ∨
        (command_ack cmd rounds late).lastLine
          ∈ ((rounds ++ List.replicate 19 []).take 19).flatten)) := by
  have hfst := pollRounds_fst_iff ("OK: ".data ++ pyStrip cmd)
      ((rounds ++ List.replicate 19 []).take 19) []
  have hlast := pollRounds_last ("OK: ".data ++ pyStrip cmd)
      ((rounds ++ List.replicate 19 []).take 19) []
  unfold command_ack
  split
  · rename_i rest l hp
    rw [hp] at hfst
    refine ⟨rfl, ?_, ?_⟩
    · rw [exists_mem_flatten]
      exact hfst
    · intro h
      exact Bool.noConfusion h
  · rename_i fst l hp
    rw [hp] at hfst hlast
    refine ⟨rfl, ?_, ?_⟩
    · rw [exists_mem_flatten]
      exact hfst
    · intro _
      refine ⟨rfl, strIn_ackErrMsg_left _ _, strIn_ackErrMsg_right _ _, ?_⟩
      exact hlast

/-- C1: the original claim fails as stated.  For `cmd = " x"` the line
`"ack OK:  x done"` contains the literal text `"OK: " + cmd`, yet
`command_ack` does not accept it (it waits for `"OK: " + cmd.strip()`),
and the bytes written are not `cmd + "\n"` but `cmd.strip() + "\n"`. -/
theorem c1_counterexample :
    strIn ("OK: ".data ++ " x".data) "ack OK:  x done".data ∧
    (command_ack " x".data [["ack OK:  x done".data]] []).written ≠ (" x\n".data) ∧
    (command_ack " x".data [["ack OK:  x done".data]] []).ok = false := by
  decide

/-- C1 witness: the amended theorem applied to a concrete timed-out call. -/
theorem c1_witness :
    (command_ack "sync 1".data [["no".data]] []).ok = false ∧
    (command_ack "sync 1".data [["no".data]] []).errMsg =
      some (ackErrMsg (command_ack "sync 1".data [["no".data]] []).lastLine "sync 1".data) ∧
    strIn "sync 1".data
      (ackErrMsg (command_ack "sync 1".data [["no".data]] []).lastLine "sync 1".data) := by
  have h := c1_command_ack "sync 1".data [["no".data]] []
  have hok : (command_ack "sync 1".data [["no".data]] []).ok = false := by decide
  exact ⟨hok, (h.2.2 hok).1, (h.2.2 hok).2.2.1⟩

/-- C9: `command_ack` is invariant under surrounding whitespace in its
argument — the stripped and unstripped calls write the same bytes and
accept exactly the same line schedules (both build the written command
and the expected reply from `cmd.strip()`). -/
theorem c9_strip_invariance (cmd : List Char) (rounds : List (List (List Char)))
    (late : List (List Char)) :
    (command_ack (pyStrip cmd) rounds late).written
        = (command_ack cmd rounds late).written ∧
    (command_ack (pyStrip cmd) rounds late).ok = (command_ack cmd rounds late).ok := by
  unfold command_ack
  rw [pyStrip_idem]
  split
  · exact ⟨rfl, rfl⟩
  · exact ⟨rfl, rfl⟩

/-- C10: whenever `command_ack` times out, every line still queued is
flushed to the warning log and the queue is empty at the moment the
error is raised. -/
theorem c10_timeout_flush (cmd : List Char) (rounds : List (List (List Char)))
    (late : List (List Char)) (h : (command_ack cmd rounds late).ok = false) :
    (command_ack cmd rounds late).queueAfter = [] ∧
    (command_ack cmd rounds late).flushedWarnings = late := by
  unfold command_ack at h ⊢
  split at h
  · exact Bool.noConfusion h
  · exact ⟨rfl, rfl⟩

/-- C10 witness: a concrete timed-out call with one late line. -/
theorem c10_witness :
    (command_ack "dc 5".data [["zz".data]] ["a".data]).queueAfter = [] ∧
    (command_ack "dc 5".data [["zz".data]] ["a".data]).flushedWarnings = ["a".data] := by
  exact c10_timeout_flush "dc 5".data [["zz".data]] ["a".data] (by decide)

/-- C3 (amended): once last-activity is more than 2 seconds old,
`check_connection` classifies the peek outcome as follows — a zero-byte
peek returns alive=true *without* closing (transport.py line 98 returns
True), available data returns true, a would-block result returns true
without closing, a connection reset closes the transport and returns
false, any other OS error returns false *without* closing, and any other
unexpected error returns true. -/
theorem c3_check_connection (e : ℚ) (h : ¬ e < 2) :
    check_connection e (.bytes 0) = { alive := true, closedTransport := false } ∧
    (∀ n : Nat, check_connection e (.bytes n)
        = { alive := true, closedTransport := false }) ∧
    check_connection e .wouldBlock = { alive := true, closedTransport := false } ∧
    check_connection e .connReset = { alive := false, closedTransport := true } ∧
    check_connection e .osError = { alive := false, closedTransport := false } ∧
    check_connection e .otherError = { alive := true, closedTransport := false } := by
  simp [check_connection, if_neg h]

/-- C3: the original claim fails on the code at two concrete inputs.
With staleness 3 s, a zero-byte peek returns alive=true and does not
close the transport (the claim says alive=false with a close), and a
generic OS error returns alive=false without closing (the claim says it
closes). -/
theorem c3_counterexample :
    check_connection 3 (.bytes 0) = { alive := true, closedTransport := false } ∧
    check_connection 3 .osError = { alive := false, closedTransport := false } := by
  decide

/-- C3 witness: the amended theorem applied at staleness 3 s. -/
theorem c3_witness :
    check_connection 3 (.bytes 0) = { alive := true, closedTransport := false } ∧
    check_connection 3 .connReset = { alive := false, closedTransport := true } ∧
    check_connection 3 .wouldBlock = { alive := true, closedTransport := false } := by
  have h := c3_check_connection 3 (by norm_num)
  exact ⟨h.1, h.2.2.2.1, h.2.2.1⟩

theorem ten_mul_div_abs (d : Int) (hd : d ≠ 0) :
    10 * d / |d| = if 0 < d then 10 else -10 := by
  rcases lt_trichotomy d 0 with h | h | h
  · rw [abs_of_neg h]
    have h2 : (10 : Int) * d = (-10) * (-d) := by ring
    rw [h2, Int.mul_ediv_cancel _ (by omega)]
    simp [not_lt.mpr (le_of_lt h)]
  · exact absurd h hd
  · rw [abs_of_pos h, Int.mul_ediv_cancel _ (by omega), if_pos h]

theorem stepDelta_decreases (p t : Int) (h : p ≠ t) :
    (t - (p + stepDelta p t)).natAbs < (t - p).natAbs := by
  unfold stepDelta
  by_cases hc : t ≠ 0 ∧ 10 < |t - p|
  · rw [if_pos hc, ten_mul_div_abs (t - p) (by omega)]
    have habs := Int.abs_eq_natAbs (t - p)
    rcases hc with ⟨_, h10⟩
    rw [habs] at h10
    by_cases hp : 0 < t - p
    · rw [if_pos hp]; omega
    · rw [if_neg hp]; omega
  · rw [if_neg hc]; omega

theorem stepToward_stepDelta (p t : Int) (hp : p ≠ t) (ht : t ≠ 0) :
    stepToward t p (p + stepDelta p t) := by
  by_cases hc : 10 < |t - p|
  · rw [stepDelta, if_pos ⟨ht, hc⟩, ten_mul_div_abs _ (by omega)]
    rw [Int.abs_eq_natAbs] at hc
    by_cases hd : 0 < t - p
    · rw [if_pos hd]
      unfold stepToward
      omega
    · rw [if_neg hd]
      unfold stepToward
      omega
  · have heq : stepDelta p t = t - p := by
      rw [stepDelta, if_neg]
      rintro ⟨_, h2⟩
      exact hc h2
    rw [heq]
    rw [Int.abs_eq_natAbs] at hc
    unfold stepToward
    omega

theorem set_D_chain (t : Int) (ht : t ≠ 0) :
    ∀ n (s : Int), (t - s).natAbs = n → List.Chain' (stepToward t) (s :: set_D_steps s t) := by
  intro n
  induction n using Nat.strong_induction_on with
  | _ n ih =>
    intro s hn
    rw [set_D_steps]
    by_cases hst : s = t
    · rw [if_pos hst]
      exact List.chain'_singleton s
    · rw [if_neg hst]
      rw [List.chain'_cons]
      refine ⟨stepToward_stepDelta s t hst ht, ?_⟩
      exact ih _ (hn ▸ stepDelta_decreases s t hst) (s + stepDelta s t) rfl

theorem set_D_last (t : Int) :
    ∀ n (s : Int), (t - s).natAbs = n → s ≠ t → (set_D_steps s t).getLast? = some t := by
  intro n
  induction n using Nat.strong_induction_on with
  | _ n ih =>
    intro s hn hst
    rw [set_D_steps, if_neg hst]
    by_cases hb : s + stepDelta s t = t
    · rw [set_D_steps, if_pos hb, hb]
      rfl
    · have htail := ih _ (hn ▸ stepDelta_decreases s t hst) (s + stepDelta s t) rfl hb
      cases hrest : set_D_steps (s + stepDelta s t) t with
      | nil =>
        rw [hrest] at htail
        simp at htail
      | cons r rest =>
        rw [hrest] at htail
        rw [List.getLast?_cons_cons]
        exact htail

/-- The idealised integer model of the ramp: no write when `s = t`, a
single unclamped `dc 0` when the target is 0, clamped monotone steps for
a nonzero target, final value `t`.  (`set_D_steps` is total, but the
real loop runs on floats; see `set_D_py` for the faithful embedding.) -/
theorem set_D_int_model (s t : Int) :
    (s = t → set_D_steps s t = []) ∧
    (s ≠ t → t = 0 → set_D_steps s t = [0]) ∧
    (t ≠ 0 → List.Chain' (stepToward t) (s :: set_D_steps s t)) ∧
    (s ≠ t → (set_D_steps s t).getLast? = some t) := by
  refine ⟨?_, ?_, ?_, ?_⟩
  · intro h
    rw [set_D_steps, if_pos h]
  · intro hst ht0
    subst ht0
    have hd : stepDelta s 0 = 0 - s := by
      rw [stepDelta, if_neg]
      rintro ⟨h1, _⟩
      exact h1 rfl
    rw [set_D_steps, if_neg hst, hd]
    have h0 : s + (0 - s) = 0 := by ring
    rw [h0, set_D_steps, if_pos rfl]
  · intro ht
    exact set_D_chain t ht _ s rfl
  · intro hst
    exact set_D_last t _ s rfl hst

theorem bitLenAux_zero (f : Nat) : bitLenAux f 0 = 0 := by
  cases f <;> rfl

theorem bitLenAux_spec : ∀ (f n : Nat), n < 2 ^ f →
    (0 < n → 2 ^ bitLenAux f n ≤ 2 * n) ∧ n < 2 ^ bitLenAux f n := by
  intro f
  induction f with
  | zero =>
    intro n hn
    have h0 : n = 0 := by omega
    subst h0
    simp [bitLenAux]
  | succ f ih =>
    intro n hn
    by_cases h0 : n = 0
    · subst h0; simp [bitLenAux]
    · have hrec : bitLenAux (f + 1) n = bitLenAux f (n / 2) + 1 := by
        simp [bitLenAux, h0]
      have hlt : n / 2 < 2 ^ f := by
        rw [pow_succ] at hn
        omega
      have ihh := ih (n / 2) hlt
      rw [hrec, pow_succ]
      constructor
      · intro _
        by_cases h2 : n / 2 = 0
        · rw [h2, bitLenAux_zero, pow_zero]
          omega
        · have := ihh.1 (Nat.pos_of_ne_zero h2)
          omega
      · have := ihh.2
        omega

theorem bitLen_lt (n : Nat) (h : n < 2 ^ 4096) : n < 2 ^ bitLen n :=
  (bitLenAux_spec 4096 n h).2

theorem bitLen_min (n : Nat) (h0 : 0 < n) (h : n < 2 ^ 4096) : 2 ^ bitLen n ≤ 2 * n :=
  (bitLenAux_spec 4096 n h).1 h0

theorem roundNE_mul (a d : Nat) (hd : 0 < d) : roundNE (a * d) d = a := by
  have hmod : a * d % d = 0 := Nat.mul_mod_left a d
  have hdiv : a * d / d = a := Nat.mul_div_cancel a hd
  unfold roundNE
  rw [hmod, hdiv]
  have hni : ¬(d < 2 * 0 ∨ (2 * 0 = d ∧ a % 2 = 1)) := by omega
  rw [if_neg hni]

theorem fpRoundPosAt_mul (q d : Nat) (hd : 0 < d) (e : Int) (he : e ≤ 0) :
    fpRoundPosAt (q * d) d e = q * 2 ^ (-e).toNat := by
  unfold fpRoundPosAt
  by_cases h0 : 0 ≤ e
  · have he0 : e = 0 := le_antisymm he h0
    subst he0
    rw [if_pos le_rfl]
    norm_num
    exact roundNE_mul q d hd
  · rw [if_neg h0]
    have hsw : q * d * 2 ^ (-e).toNat = q * 2 ^ (-e).toNat * d := by ring
    rw [hsw, roundNE_mul _ d hd]

theorem fpRoundPos_exact (q d : Nat) (hq0 : 0 < q) (hq : q < 2 ^ 53) (hd : 0 < d)
    (hdB : d < 2 ^ 1000) : fpRoundPos (q * d) d = fpCanonPos q := by
  have hn4 : q * d < 2 ^ 4096 := by
    calc q * d < 2 ^ 53 * 2 ^ 1000 := Nat.mul_lt_mul_of_lt_of_lt hq hdB
    _ = 2 ^ 1053 := by rw [← pow_add]
    _ ≤ 2 ^ 4096 := Nat.pow_le_pow_right (by norm_num) (by norm_num)
  have hq4 : q < 2 ^ 4096 := by
    calc q < 2 ^ 53 := hq
    _ ≤ 2 ^ 4096 := Nat.pow_le_pow_right (by norm_num) (by norm_num)
  have hd4 : d < 2 ^ 4096 := by
    calc d < 2 ^ 1000 := hdB
    _ ≤ 2 ^ 4096 := Nat.pow_le_pow_right (by norm_num) (by norm_num)
  have hqlt := bitLen_lt q hq4
  have hqmin := bitLen_min q hq0 hq4
  have hdlt := bitLen_lt d hd4
  have hdmin := bitLen_min d hd hd4
  have hnlt := bitLen_lt (q * d) hn4
  have hnmin := bitLen_min (q * d) (by positivity) hn4
  have hblq1 : 1 ≤ bitLen q := by
    by_contra hc
    have hz : bitLen q = 0 := by omega
    rw [hz, pow_zero] at hqlt
    omega
  have hblq53 : bitLen q ≤ 53 := by
    have h1 : 2 ^ bitLen q < 2 ^ 54 := by
      calc 2 ^ bitLen q ≤ 2 * q := hqmin
      _ < 2 * 2 ^ 53 := by omega
      _ = 2 ^ 54 := by norm_num
    have := (Nat.pow_lt_pow_iff_right (by norm_num : 1 < 2)).mp h1
    omega
  have hbld1 : 1 ≤ bitLen d := by
    by_contra hc
    have h0 : bitLen d = 0 := by omega
    rw [h0, pow_zero] at hdlt
    omega
  have hup : bitLen (q * d) ≤ bitLen q + bitLen d := by
    have h1 : 2 ^ bitLen (q * d) < 2 ^ (bitLen q + bitLen d + 1) := by
      calc 2 ^ bitLen (q * d) ≤ 2 * (q * d) := hnmin
      _ < 2 * (2 ^ bitLen q * 2 ^ bitLen d) := by
          have := Nat.mul_lt_mul_of_lt_of_lt hqlt hdlt
          omega
      _ = 2 ^ (bitLen q + bitLen d + 1) := by rw [← pow_add]; ring
    have := (Nat.pow_lt_pow_iff_right (by norm_num : 1 < 2)).mp h1
    omega
  have hlo : bitLen q + bitLen d ≤ bitLen (q * d) + 1 := by
    have h1 : 2 ^ (bitLen q + bitLen d) < 2 ^ (bitLen (q * d) + 2) := by
      calc 2 ^ (bitLen q + bitLen d) = 2 ^ bitLen q * 2 ^ bitLen d := by rw [pow_add]
      _ ≤ (2 * q) * (2 * d) := Nat.mul_le_mul hqmin hdmin
      _ = 4 * (q * d) := by ring
      _ < 4 * 2 ^ bitLen (q * d) := by omega
      _ = 2 ^ (bitLen (q * d) + 2) := by rw [pow_add]; ring
    have := (Nat.pow_lt_pow_iff_right (by norm_num : 1 < 2)).mp h1
    omega
  have hmax : max (-1074) ((bitLen (q * d) : Int) - (bitLen d : Int) - 53)
      = (bitLen (q * d) : Int) - (bitLen d : Int) - 53 := by
    rw [max_eq_right]
    omega
  unfold fpRoundPos fpRoundPosE
  rw [hmax]
  rw [fpRoundPosAt_mul q d hd _ (by omega)]
  by_cases hcase : bitLen (q * d) = bitLen q + bitLen d
  · have hk : (-((bitLen (q * d) : Int) - (bitLen d : Int) - 53)).toNat = 53 - bitLen q := by
      omega
    rw [hk]
    have hlt53 : q * 2 ^ (53 - bitLen q) < 2 ^ 53 := by
      calc q * 2 ^ (53 - bitLen q) < 2 ^ bitLen q * 2 ^ (53 - bitLen q) := by
            have h2 : (0 : Nat) < 2 ^ (53 - bitLen q) := Nat.pos_pow_of_pos _ (by norm_num)
            exact (Nat.mul_lt_mul_right h2).mpr hqlt
      _ = 2 ^ 53 := by rw [← pow_add]; congr 1; omega
    rw [if_neg (by omega)]
    unfold fpCanonPos
    congr 1
    omega
  · have hcase2 : bitLen (q * d) + 1 = bitLen q + bitLen d := by omega
    have hk : (-((bitLen (q * d) : Int) - (bitLen d : Int) - 53)).toNat = 54 - bitLen q := by
      omega
    rw [hk]
    have hge53 : 2 ^ 53 ≤ q * 2 ^ (54 - bitLen q) := by
      have hq2 : 2 ^ (bitLen q - 1) ≤ q := by
        have h1 : 2 ^ (bitLen q - 1) * 2 = 2 ^ bitLen q := by
          rw [← pow_succ]
          congr 1
          omega
        omega
      calc (2 : Nat) ^ 53 = 2 ^ (bitLen q - 1) * 2 ^ (54 - bitLen q) := by
            rw [← pow_add]; congr 1; omega
      _ ≤ q * 2 ^ (54 - bitLen q) :=
        Nat.mul_le_mul_right _ hq2
    rw [if_pos hge53]
    rw [fpRoundPosAt_mul q d hd _ (by omega)]
    have hk2 : (-((bitLen (q * d) : Int) - (bitLen d : Int) - 53 + 1)).toNat
        = 53 - bitLen q := by omega
    rw [hk2]
    unfold fpCanonPos
    congr 1
    omega

theorem fpRound_exact (n : Int) (d : Nat) (q : Int) (hd : 0 < d) (hdB : d < 2 ^ 1000)
    (hn : n = q * d) (hq : q.natAbs < 2 ^ 53) : fpRound n d = fpCanon q := by
  rcases lt_trichotomy q 0 with hq0 | hq0 | hq0
  · have hnneg : n < 0 := by
      rw [hn]
      exact mul_neg_of_neg_of_pos hq0 (by exact_mod_cast hd)
    have habs : n.natAbs = q.natAbs * d := by
      rw [hn, Int.natAbs_mul, Int.natAbs_ofNat]
    unfold fpRound
    rw [if_neg (by omega), if_neg (by omega)]
    rw [habs, fpRoundPos_exact q.natAbs d (by omega) hq hd hdB]
    unfold fpCanon
    rw [if_neg (by omega), if_neg (by omega)]
  · subst hq0
    simp only [zero_mul] at hn
    subst hn
    unfold fpRound fpCanon
    rw [if_pos (Or.inl rfl), if_pos rfl]
  · have hnpos : 0 < n := by
      rw [hn]
      exact mul_pos hq0 (by exact_mod_cast hd)
    have habs : n.natAbs = q.natAbs * d := by
      rw [hn, Int.natAbs_mul, Int.natAbs_ofNat]
    unfold fpRound
    rw [if_neg (by omega), if_pos hnpos]
    rw [habs, fpRoundPos_exact q.natAbs d (by omega) hq hd hdB]
    unfold fpCanon
    rw [if_neg (by omega), if_pos hq0]

theorem fpCanonPos_shift (v : Nat) (h0 : 0 < v) (hv : v < 2 ^ 53) :
    (fpCanonPos v).m = (v : Int) * 2 ^ (-(fpCanonPos v).e).toNat ∧
    -52 ≤ (fpCanonPos v).e ∧ (fpCanonPos v).e ≤ 0 := by
  have hv4 : v < 2 ^ 4096 := by
    calc v < 2 ^ 53 := hv
    _ ≤ 2 ^ 4096 := Nat.pow_le_pow_right (by norm_num) (by norm_num)
  have hvlt := bitLen_lt v hv4
  have hvmin := bitLen_min v h0 hv4
  have hbl1 : 1 ≤ bitLen v := by
    by_contra hc
    have hz : bitLen v = 0 := by omega
    rw [hz, pow_zero] at hvlt
    omega
  have hbl53 : bitLen v ≤ 53 := by
    have h1 : 2 ^ bitLen v < 2 ^ 54 := by
      calc 2 ^ bitLen v ≤ 2 * v := hvmin
      _ < 2 * 2 ^ 53 := by omega
      _ = 2 ^ 54 := by norm_num
    have := (Nat.pow_lt_pow_iff_right (by norm_num : 1 < 2)).mp h1
    omega
  unfold fpCanonPos
  refine ⟨?_, by dsimp; omega, by dsimp; omega⟩
  dsimp
  have hk : (-((bitLen v : Int) - 53)).toNat = 53 - bitLen v := by omega
  rw [hk]
  push_cast
  ring

theorem fpCanon_shift (v : Int) (hv : v.natAbs < 2 ^ 53) :
    (fpCanon v).m = v * 2 ^ (-(fpCanon v).e).toNat ∧
    -52 ≤ (fpCanon v).e ∧ (fpCanon v).e ≤ 0 := by
  unfold fpCanon
  by_cases h0 : v = 0
  · subst h0
    rw [if_pos rfl]
    norm_num
  · by_cases hp : 0 < v
    · rw [if_neg h0, if_pos hp]
      obtain ⟨h1, h2, h3⟩ := fpCanonPos_shift v.natAbs (by omega) hv
      refine ⟨?_, h2, h3⟩
      rw [h1]
      have hc : ((v.natAbs : Int)) = v := by omega
      rw [hc]
    · rw [if_neg h0, if_neg hp]
      obtain ⟨h1, h2, h3⟩ := fpCanonPos_shift v.natAbs (by omega) hv
      unfold fpNegF
      refine ⟨?_, h2, h3⟩
      dsimp
      rw [h1]
      have hc : ((v.natAbs : Int)) = -v := by omega
      rw [hc]
      ring

theorem fpCanon_m_ne (v : Int) (hv : v.natAbs < 2 ^ 53) (h0 : v ≠ 0) : (fpCanon v).m ≠ 0 := by
  obtain ⟨h1, _, _⟩ := fpCanon_shift v hv
  rw [h1]
  exact mul_ne_zero h0 (pow_ne_zero _ (by norm_num))

theorem fpCanon_m_bound (v : Int) (hv : v.natAbs < 2 ^ 53) :
    (fpCanon v).m.natAbs < 2 ^ 105 := by
  obtain ⟨h1, h2, h3⟩ := fpCanon_shift v hv
  rw [h1, Int.natAbs_mul]
  have hp : ((2 : Int) ^ (-(fpCanon v).e).toNat).natAbs = 2 ^ (-(fpCanon v).e).toNat := by
    rw [Int.natAbs_pow]
    rfl
  rw [hp]
  calc v.natAbs * 2 ^ (-(fpCanon v).e).toNat < 2 ^ 53 * 2 ^ 52 := by
        apply Nat.mul_lt_mul_of_lt_of_le hv (Nat.pow_le_pow_right (by norm_num) (by omega))
        norm_num
  _ = 2 ^ 105 := by norm_num

theorem fpOfDyadic_canon (m e v : Int) (he : e ≤ 0) (heB : -900 ≤ e)
    (hm : m = v * 2 ^ (-e).toNat) (hv : v.natAbs < 2 ^ 53) :
    fpOfDyadic m e = fpCanon v := by
  unfold fpOfDyadic
  by_cases h0 : 0 ≤ e
  · have he0 : e = 0 := le_antisymm he h0
    subst he0
    rw [if_pos le_rfl]
    apply fpRound_exact _ 1 v one_pos (by norm_num) ?_ hv
    rw [hm]
    norm_num
  · rw [if_neg h0]
    apply fpRound_exact _ _ v (Nat.pos_pow_of_pos _ (by norm_num)) ?_ ?_ hv
    · apply Nat.pow_lt_pow_right (by norm_num : 1 < 2)
      omega
    · rw [hm]
      push_cast
      ring

theorem fpOfInt_canon (v : Int) (hv : v.natAbs < 2 ^ 53) : fpOfInt v = fpCanon v := by
  unfold fpOfInt
  exact fpRound_exact v 1 v one_pos (by norm_num) (by ring) hv

theorem fpAdd_canon (x y : Int) (hx : x.natAbs < 2 ^ 53) (hy : y.natAbs < 2 ^ 53)
    (hxy : (x + y).natAbs < 2 ^ 53) : fpAdd (fpCanon x) (fpCanon y) = fpCanon (x + y) := by
  obtain ⟨hmx, hex1, hex2⟩ := fpCanon_shift x hx
  obtain ⟨hmy, hey1, hey2⟩ := fpCanon_shift y hy
  unfold fpAdd
  apply fpOfDyadic_canon _ _ _ (by omega) (by omega) ?_ hxy
  rw [hmx, hmy, mul_assoc, mul_assoc, ← pow_add, ← pow_add]
  have h1 : (-(fpCanon x).e).toNat + ((fpCanon x).e - min (fpCanon x).e (fpCanon y).e).toNat
      = (-(min (fpCanon x).e (fpCanon y).e)).toNat := by omega
  have h2 : (-(fpCanon y).e).toNat + ((fpCanon y).e - min (fpCanon x).e (fpCanon y).e).toNat
      = (-(min (fpCanon x).e (fpCanon y).e)).toNat := by omega
  rw [h1, h2]
  ring

theorem fpNegF_canon (v : Int) : fpNegF (fpCanon v) = fpCanon (-v) := by
  unfold fpCanon
  by_cases h0 : v = 0
  · subst h0
    norm_num [fpNegF]
  · by_cases hp : 0 < v
    · rw [if_neg h0, if_pos hp, if_neg (by omega), if_neg (by omega)]
      rw [show (-v).natAbs = v.natAbs from by omega]
    · rw [if_neg h0, if_neg hp, if_neg (by omega), if_pos (by omega)]
      rw [show (-v).natAbs = v.natAbs from by omega]
      unfold fpNegF
      simp

theorem fpSub_canon (x y : Int) (hx : x.natAbs < 2 ^ 53) (hy : y.natAbs < 2 ^ 53)
    (hxy : (x - y).natAbs < 2 ^ 53) : fpSub (fpCanon x) (fpCanon y) = fpCanon (x - y) := by
  unfold fpSub
  rw [fpNegF_canon]
  have h1 : x - y = x + -y := by ring
  rw [h1]
  exact fpAdd_canon x (-y) hx (by omega) (by omega)

theorem fpMulNat_canon (c : Nat) (v : Int) (hv : v.natAbs < 2 ^ 53)
    (hcv : ((c : Int) * v).natAbs < 2 ^ 53) :
    fpMulNat c (fpCanon v) = fpCanon ((c : Int) * v) := by
  obtain ⟨hm, he1, he2⟩ := fpCanon_shift v hv
  unfold fpMulNat
  apply fpOfDyadic_canon _ _ _ he2 (by omega) ?_ hcv
  rw [hm]
  ring

theorem fpRoundS_exact (n dd q : Int) (hdd : dd ≠ 0) (hddB : dd.natAbs < 2 ^ 1000)
    (hn : n = q * dd) (hq : q.natAbs < 2 ^ 53) : fpRoundS n dd = fpCanon q := by
  unfold fpRoundS
  by_cases hneg : dd < 0
  · rw [if_pos hneg]
    apply fpRound_exact _ _ q (by omega) hddB ?_ hq
    rw [hn]
    have hdd2 : ((dd.natAbs : Int)) = -dd := by omega
    rw [hdd2]
    ring
  · rw [if_neg hneg]
    apply fpRound_exact _ _ q (by omega) hddB ?_ hq
    rw [hn]
    have hdd2 : ((dd.natAbs : Int)) = dd := by omega
    rw [hdd2]

theorem fpDiv_canon (A B q : Int) (hA : A.natAbs < 2 ^ 53) (hB : B.natAbs < 2 ^ 53)
    (hB0 : B ≠ 0) (hq : A = q * B) (hq53 : q.natAbs < 2 ^ 53) :
    fpDiv (fpCanon A) (fpCanon B) = fpCanon q := by
  obtain ⟨hmA, heA1, heA2⟩ := fpCanon_shift A hA
  obtain ⟨hmB, heB1, heB2⟩ := fpCanon_shift B hB
  have hmBne : (fpCanon B).m ≠ 0 := fpCanon_m_ne B hB hB0
  have hmBb : (fpCanon B).m.natAbs < 2 ^ 105 := fpCanon_m_bound B hB
  unfold fpDiv
  by_cases hk : 0 ≤ (fpCanon A).e - (fpCanon B).e
  · rw [if_pos hk]
    apply fpRoundS_exact _ _ q hmBne (by omega) ?_ hq53
    rw [hmA, hmB, mul_assoc, ← pow_add]
    have hsum : (-(fpCanon A).e).toNat + ((fpCanon A).e - (fpCanon B).e).toNat
        = (-(fpCanon B).e).toNat := by omega
    rw [hsum, hq]
    ring
  · rw [if_neg hk]
    have hddne : (fpCanon B).m * 2 ^ ((fpCanon B).e - (fpCanon A).e).toNat ≠ 0 :=
      mul_ne_zero hmBne (pow_ne_zero _ (by norm_num))
    have hddB : ((fpCanon B).m * 2 ^ ((fpCanon B).e - (fpCanon A).e).toNat).natAbs
        < 2 ^ 1000 := by
      rw [Int.natAbs_mul]
      have hp : ((2 : Int) ^ ((fpCanon B).e - (fpCanon A).e).toNat).natAbs
          = 2 ^ ((fpCanon B).e - (fpCanon A).e).toNat := by
        rw [Int.natAbs_pow]
        rfl
      rw [hp]
      calc (fpCanon B).m.natAbs * 2 ^ ((fpCanon B).e - (fpCanon A).e).toNat
          < 2 ^ 105 * 2 ^ 52 := by
            apply Nat.mul_lt_mul_of_lt_of_le hmBb
              (Nat.pow_le_pow_right (by norm_num) (by omega))
            norm_num
      _ ≤ 2 ^ 1000 := by norm_num
    apply fpRoundS_exact _ _ q hddne hddB ?_ hq53
    rw [hmA, hmB, mul_assoc B, ← pow_add]
    have hsum : (-(fpCanon B).e).toNat + ((fpCanon B).e - (fpCanon A).e).toNat
        = (-(fpCanon A).e).toNat := by omega
    rw [hsum, hq]
    ring

theorem fpTrunc_canon (v : Int) (hv : v.natAbs < 2 ^ 53) : fpTrunc (fpCanon v) = v := by
  obtain ⟨hm, he1, he2⟩ := fpCanon_shift v hv
  unfold fpTrunc
  by_cases h0 : 0 ≤ (fpCanon v).e
  · have he0 : (fpCanon v).e = 0 := le_antisymm he2 h0
    rw [if_pos h0, hm, he0]
    norm_num
  · rw [if_neg h0, hm]
    exact Int.mul_tdiv_cancel v (pow_ne_zero _ (by norm_num))

theorem fpEqInt_canon (v c : Int) (hv : v.natAbs < 2 ^ 53) :
    fpEqInt (fpCanon v) c = decide (v = c) := by
  obtain ⟨hm, he1, he2⟩ := fpCanon_shift v hv
  unfold fpEqInt
  by_cases h0 : 0 ≤ (fpCanon v).e
  · have he0 : (fpCanon v).e = 0 := le_antisymm he2 h0
    rw [if_pos h0, hm, he0]
    norm_num
  · rw [if_neg h0, hm]
    simp only [decide_eq_decide]
    constructor
    · intro h
      exact mul_right_cancel₀ (pow_ne_zero _ (by norm_num : (2 : Int) ≠ 0)) h
    · intro h
      rw [h]

theorem fpLtIntF_canon (v c : Int) (hv : v.natAbs < 2 ^ 53) :
    fpLtIntF c (fpCanon v) = decide (c < v) := by
  obtain ⟨hm, he1, he2⟩ := fpCanon_shift v hv
  unfold fpLtIntF
  by_cases h0 : 0 ≤ (fpCanon v).e
  · have he0 : (fpCanon v).e = 0 := le_antisymm he2 h0
    rw [if_pos h0, hm, he0]
    norm_num
  · rw [if_neg h0, hm]
    simp only [decide_eq_decide]
    exact mul_lt_mul_right (pow_pos (by norm_num) _)

theorem fpAbs_canon (v : Int) : (⟨|(fpCanon v).m|, (fpCanon v).e⟩ : Fp) = fpCanon |v| := by
  by_cases h0 : v = 0
  · subst h0
    norm_num [fpCanon]
  · by_cases hp : 0 < v
    · rw [abs_of_pos hp]
      unfold fpCanon
      rw [if_neg h0, if_pos hp]
      unfold fpCanonPos
      dsimp
      rw [abs_of_nonneg (Int.natCast_nonneg _)]
    · have hneg : v < 0 := by omega
      rw [abs_of_neg hneg]
      unfold fpCanon
      rw [if_neg h0, if_neg hp, if_neg (by omega), if_pos (by omega)]
      rw [show (-v).natAbs = v.natAbs from by omega]
      unfold fpNegF fpCanonPos
      dsimp
      rw [abs_neg, abs_of_nonneg (Int.natCast_nonneg _)]

theorem stepDelta_cases (v t : Int) :
    stepDelta v t = t - v ∨ stepDelta v t = 10 ∨ stepDelta v t = -10 := by
  rw [stepDelta]
  by_cases hc : t ≠ 0 ∧ 10 < |t - v|
  · have hd0 : t - v ≠ 0 := by
      have h2 := hc.2
      rw [Int.abs_eq_natAbs] at h2
      omega
    rw [if_pos hc, ten_mul_div_abs _ hd0]
    by_cases hp : 0 < t - v
    · rw [if_pos hp]
      right; left; rfl
    · rw [if_neg hp]
      right; right; rfl
  · rw [if_neg hc]
    left; rfl

theorem stepDelta_next_bound (v t : Int) (hv : v.natAbs ≤ 2 ^ 49) (ht : t.natAbs ≤ 2 ^ 48) :
    (v + stepDelta v t).natAbs ≤ 2 ^ 49 := by
  by_cases hvt : v = t
  · subst hvt
    have hz : ¬(v ≠ 0 ∧ 10 < |v - v|) := by
      rintro ⟨_, h2⟩
      simp at h2
    rw [stepDelta, if_neg hz]
    omega
  · by_cases ht0 : t = 0
    · subst ht0
      have hz : ¬((0 : Int) ≠ 0 ∧ 10 < |0 - v|) := by
        rintro ⟨h1, _⟩
        exact h1 rfl
      rw [stepDelta, if_neg hz]
      omega
    · have hst := stepToward_stepDelta v t hvt ht0
      unfold stepToward at hst
      omega

theorem pyNeInt_isInt (p : PyVal) (v t : Int) (hp : pyIsInt p v) (hv : v.natAbs < 2 ^ 53) :
    pyNeInt p t = decide (v ≠ t) := by
  cases p with
  | int n =>
    have hnv : n = v := hp
    subst hnv
    rfl
  | float f =>
    have hf : f = fpCanon v := hp
    subst hf
    show (!fpEqInt (fpCanon v) t) = decide (v ≠ t)
    rw [fpEqInt_canon v t hv]
    simp

theorem pyTruncVal_isInt (p : PyVal) (v : Int) (hp : pyIsInt p v) (hv : v.natAbs < 2 ^ 53) :
    pyTruncVal p = v := by
  cases p with
  | int n => exact hp
  | float f =>
    have hf : f = fpCanon v := hp
    subst hf
    show fpTrunc (fpCanon v) = v
    exact fpTrunc_canon v hv

theorem pyAdd_isInt (a b : PyVal) (x y : Int) (ha : pyIsInt a x) (hb : pyIsInt b y)
    (hx : x.natAbs < 2 ^ 53) (hy : y.natAbs < 2 ^ 53) (hxy : (x + y).natAbs < 2 ^ 53) :
    pyIsInt (pyAdd a b) (x + y) := by
  cases a with
  | int n =>
    have hnx : n = x := ha
    subst hnx
    cases b with
    | int m =>
      have hmy : m = y := hb
      subst hmy
      rfl
    | float g =>
      have hg : g = fpCanon y := hb
      subst hg
      show fpAdd (fpOfInt n) (fpCanon y) = fpCanon (n + y)
      rw [fpOfInt_canon n hx]
      exact fpAdd_canon n y hx hy hxy
  | float f =>
    have hf : f = fpCanon x := ha
    subst hf
    cases b with
    | int m =>
      have hmy : m = y := hb
      subst hmy
      show fpAdd (fpCanon x) (fpOfInt m) = fpCanon (x + m)
      rw [fpOfInt_canon m hy]
      exact fpAdd_canon x m hx hy hxy
    | float g =>
      have hg : g = fpCanon y := hb
      subst hg
      show fpAdd (fpCanon x) (fpCanon y) = fpCanon (x + y)
      exact fpAdd_canon x y hx hy hxy

theorem pyStepDelta_isInt (t v : Int) (p : PyVal) (hp : pyIsInt p v)
    (hv : v.natAbs ≤ 2 ^ 49) (ht : t.natAbs ≤ 2 ^ 48) :
    pyIsInt (pyStepDelta t p) (stepDelta v t) := by
  have hd53 : (t - v).natAbs < 2 ^ 53 := by omega
  unfold pyStepDelta
  cases p with
  | int n =>
    have hnv : n = v := hp
    subst hnv
    simp only [pySubIntP, pyAbs, pyGtInt, decide_eq_true_eq]
    by_cases hc : t ≠ 0 ∧ 10 < |t - n|
    · have hd0 : t - n ≠ 0 := by
        have h2 := hc.2
        rw [Int.abs_eq_natAbs] at h2
        omega
      rw [if_pos hc, stepDelta, if_pos hc, ten_mul_div_abs _ hd0]
      simp only [pyMulTen, pyDiv]
      by_cases hpos : 0 < t - n
      · rw [if_pos hpos]
        show fpRoundS (10 * (t - n)) |t - n| = fpCanon 10
        apply fpRoundS_exact _ _ 10 (by omega) ?_ ?_ (by omega)
        · rw [Int.abs_eq_natAbs]
          omega
        · rw [abs_of_pos hpos]
      · rw [if_neg hpos]
        show fpRoundS (10 * (t - n)) |t - n| = fpCanon (-10)
        apply fpRoundS_exact _ _ (-10) (by omega) ?_ ?_ (by omega)
        · rw [Int.abs_eq_natAbs]
          omega
        · rw [abs_of_neg (by omega)]
          ring
    · rw [if_neg hc, stepDelta, if_neg hc]
      rfl
  | float f =>
    have hf : f = fpCanon v := hp
    subst hf
    simp only [pySubIntP]
    rw [fpOfInt_canon t (by omega), fpSub_canon t v (by omega) (by omega) (by omega)]
    simp only [pyAbs]
    rw [fpAbs_canon]
    simp only [pyGtInt]
    simp only [fpLtIntF_canon |t - v| 10 (by rw [Int.abs_eq_natAbs]; omega),
      decide_eq_true_eq]
    by_cases hc : t ≠ 0 ∧ 10 < |t - v|
    · have hd0 : t - v ≠ 0 := by
        have h2 := hc.2
        rw [Int.abs_eq_natAbs] at h2
        omega
      rw [if_pos hc, stepDelta, if_pos hc, ten_mul_div_abs _ hd0]
      simp only [pyMulTen, pyDiv]
      rw [fpMulNat_canon 10 (t - v) hd53 (by push_cast; omega)]
      have hten : ((10 : Nat) : Int) * (t - v) = 10 * (t - v) := by push_cast; ring
      rw [hten]
      by_cases hpos : 0 < t - v
      · rw [if_pos hpos]
        show fpDiv (fpCanon (10 * (t - v))) (fpCanon |t - v|) = fpCanon 10
        apply fpDiv_canon _ _ 10 (by omega) ?_ (by omega) ?_ (by omega)
        · rw [Int.abs_eq_natAbs]
          omega
        · rw [abs_of_pos hpos]
      · rw [if_neg hpos]
        show fpDiv (fpCanon (10 * (t - v))) (fpCanon |t - v|) = fpCanon (-10)
        apply fpDiv_canon _ _ (-10) (by omega) ?_ (by omega) ?_ (by omega)
        · rw [Int.abs_eq_natAbs]
          omega
        · rw [abs_of_neg (by omega)]
          ring
    · rw [if_neg hc, stepDelta, if_neg hc]
      rfl

theorem pyStepCtrl_isInt (t v : Int) (p : PyVal) (hp : pyIsInt p v)
    (hv : v.natAbs ≤ 2 ^ 49) (ht : t.natAbs ≤ 2 ^ 48) :
    pyIsInt (pyStepCtrl t p) (v + stepDelta v t) := by
  unfold pyStepCtrl
  have hd := pyStepDelta_isInt t v p hp hv ht
  have hdc := stepDelta_cases v t
  have hnb := stepDelta_next_bound v t hv ht
  apply pyAdd_isInt p (pyStepDelta t p) v (stepDelta v t) hp hd (by omega) ?_ (by omega)
  rcases hdc with h | h | h <;> rw [h] <;> omega

theorem set_D_py_agrees (t : Int) (ht : t.natAbs ≤ 2 ^ 48) :
    ∀ (fuel : Nat) (v : Int) (p : PyVal), pyIsInt p v → v.natAbs ≤ 2 ^ 49 →
      (t - v).natAbs ≤ fuel → set_D_py fuel t p = some (set_D_steps v t) := by
  intro fuel
  induction fuel with
  | zero =>
    intro v p hp hv hf
    have hvt : v = t := by omega
    have hne : pyNeInt p t = false := by
      rw [pyNeInt_isInt p v t hp (by omega), hvt]
      simp
    rw [set_D_steps, if_pos hvt]
    simp only [set_D_py, hne]
    rfl
  | succ f ih =>
    intro v p hp hv hf
    by_cases hvt : v = t
    · have hne : pyNeInt p t = false := by
        rw [pyNeInt_isInt p v t hp (by omega), hvt]
        simp
      rw [set_D_steps, if_pos hvt]
      simp only [set_D_py, hne]
      rfl
    · have hne : pyNeInt p t = true := by
        rw [pyNeInt_isInt p v t hp (by omega)]
        simp [hvt]
      have hstep := pyStepCtrl_isInt t v p hp hv ht
      have hbound := stepDelta_next_bound v t hv ht
      have hdec := stepDelta_decreases v t hvt
      simp only [set_D_py, hne]
      rw [set_D_steps, if_neg hvt]
      rw [ih (v + stepDelta v t) (pyStepCtrl t p) hstep hbound (by omega)]
      simp only [pyTruncVal_isInt (pyStepCtrl t p) (v + stepDelta v t) hstep (by omega)]
      rfl

theorem set_D_py_step (fuel : Nat) (t : Int) (p : PyVal) (h : pyNeInt p t = true) :
    set_D_py (fuel + 1) t p =
      (set_D_py fuel t (pyStepCtrl t p)).map (fun l => pyTruncVal (pyStepCtrl t p) :: l) := by
  simp only [set_D_py, h]
  rfl

theorem set_D_py_stuck (t : Int) (p : PyVal) (hne : pyNeInt p t = true)
    (hfix : pyStepCtrl t p = p) : ∀ fuel, set_D_py fuel t p = none := by
  intro fuel
  induction fuel with
  | zero => simp only [set_D_py, hne]; rfl
  | succ n ih => rw [set_D_py_step n t p hne, hfix, ih]; rfl

/-- C5: under Python float semantics, the ramp with start `s` and target
`t` both bounded by `2 ^ 48` terminates within `|t - s|` iterations and
writes exactly the integer-model sequence: nothing when `s = t`, the
single unclamped `dc 0` when the target is 0, and otherwise clamped
monotone steps of magnitude at most `max_step = 10` from `s` toward `t`
without overshooting, the last written value being exactly `t`.  (For
targets outside binary64 range the loop need not terminate; see the
counterexample.) -/
theorem c5_set_D_float (s t : Int) (fuel : Nat) (hs : s.natAbs ≤ 2 ^ 48)
    (ht : t.natAbs ≤ 2 ^ 48) (hfuel : (t - s).natAbs ≤ fuel) :
    set_D_py fuel t (.int s) = some (set_D_steps s t) ∧
    (s = t → set_D_steps s t = []) ∧
    (s ≠ t → t = 0 → set_D_steps s t = [0]) ∧
    (t ≠ 0 → List.Chain' (stepToward t) (s :: set_D_steps s t)) ∧
    (s ≠ t → (set_D_steps s t).getLast? = some t) := by
  refine ⟨?_, set_D_int_model s t⟩
  exact set_D_py_agrees t ht fuel s (.int s) rfl (by omega) hfuel

set_option maxRecDepth 400000 in
/-- C5 counterexample: with start `s = 2 ^ 53 - 20` and target
`t = 2 ^ 53 + 1` (an integer that is not representable as a binary64,
which rounds to `2 ^ 53`), `pwm_ctrl` becomes the float `2 ^ 53` after
two iterations, `delta` then rounds to `0.0`, and the guard
`pwm_ctrl != pwm_cnt` stays true forever: the loop never terminates and
repeats `dc 9007199254740992` — the final written value is never `t`. -/
theorem c5_counterexample :
    set_D_diverges 9007199254740993 (.int 9007199254740972) ∧
    set_D_writes 5 9007199254740993 (.int 9007199254740972) =
      [9007199254740982, 9007199254740992, 9007199254740992, 9007199254740992,
       9007199254740992] := by
  constructor
  · intro fuel
    match fuel with
    | 0 => decide
    | 1 => decide
    | n + 2 =>
      rw [set_D_py_step (n + 1) _ _ (by decide), set_D_py_step n _ _ (by decide)]
      rw [show pyStepCtrl 9007199254740993 (pyStepCtrl 9007199254740993 (.int 9007199254740972))
            = .float ⟨4503599627370496, 1⟩ from by decide]
      rw [set_D_py_stuck 9007199254740993 (.float ⟨4503599627370496, 1⟩) (by decide) (by decide)
            n]
      rfl
  · decide

/-- C5 witness: the amended theorem at concrete ramps — float execution
agrees with the integer model for 0→25, no write for 7→7, a single
`dc 0` for 100→0, and a clamped monotone chain ending at the target for
0→25. -/
theorem c5_witness :
    set_D_py 30 25 (.int 0) = some (set_D_steps 0 25) ∧
    set_D_steps 7 7 = [] ∧ set_D_steps 100 0 = [0] ∧
    List.Chain' (stepToward 25) (0 :: set_D_steps 0 25) ∧
    (set_D_steps 0 25).getLast? = some 25 := by
  have h0 := c5_set_D_float 0 25 30 (by decide) (by decide) (by decide)
  have h1 := c5_set_D_float 7 7 0 (by decide) (by decide) (by decide)
  have h2 := c5_set_D_float 100 0 100 (by decide) (by decide) (by decide)
  exact ⟨h0.1, h1.2.1 rfl, h2.2.2.1 (by decide) rfl, h0.2.2.2.1 (by decide),
    h0.2.2.2.2 (by decide)⟩

theorem matchRE_seq_lit {f : Nat} {c : Char} {b : RE} {s : List Char} {caps : Caps}
    {k : List Char → Caps → Option Caps} {res : Caps}
    (h : matchRE f (.seq (lit c) b) s caps k = some res) :
    ∃ f1 s1, s = c :: s1 ∧ matchRE f1 b s1 caps k = some res := by
  cases f with
  | zero => simp [matchRE] at h
  | succ f1 =>
    rw [matchRE] at h
    cases f1 with
    | zero => simp [matchRE] at h
    | succ f2 =>
      cases s with
      | nil => simp [lit, matchRE] at h
      | cons c0 s1 =>
        simp only [lit, matchRE] at h
        by_cases hc : c0 == c
        · rw [if_pos hc] at h
          exact ⟨Nat.succ f2, s1, by rw [eq_of_beq hc], h⟩
        · rw [if_neg hc] at h
          exact absurd h (by simp)

theorem rePWM_head : ∃ R, rePWM = RE.seq (lit 'V') (RE.seq (lit '=') R) := ⟨_, rfl⟩

theorem reSearch_rePWM_V (f : Nat) :
    ∀ (s : List Char) (caps : Caps), reSearch f rePWM s = some caps → strIn "V=".data s := by
  obtain ⟨R, hre⟩ := rePWM_head
  intro s
  induction s with
  | nil =>
    intro caps h
    rw [reSearch, reMatch, hre] at h
    obtain ⟨f1, s1, hcons, _⟩ := matchRE_seq_lit h
    exact absurd hcons (by simp)
  | cons c t ih =>
    intro caps h
    rw [reSearch] at h
    cases hm : reMatch f rePWM (c :: t) with
    | some caps2 =>
      rw [reMatch, hre] at hm
      obtain ⟨f1, s1, hcons, hrest⟩ := matchRE_seq_lit hm
      obtain ⟨f2, s2, hcons2, _⟩ := matchRE_seq_lit hrest
      show "V=".data <:+: c :: t
      refine ⟨[], s2, ?_⟩
      rw [hcons, hcons2]
      rfl
    | none =>
      rw [hm] at h
      exact List.infix_cons (ih caps h)

/-- C4 (amended): the telemetry grammar has no optional parts — `search`
succeeds only when every section of the pattern is present, so a line
carrying only the structural skeleton (mode keyword, the three PWM
integers, rssi) without the leading voltage section `V=` never parses;
every parsed line must contain `V=`.  (The `d.get(..., default)` calls of
the source never see an absent group: all named groups are on the
mandatory path of the pattern.) -/
theorem c4_parse_requires_voltage (s : List Char)
    (h : (parsePwm s).isSome = true) : strIn "V=".data s := by
  unfold parsePwm at h
  cases hm : reSearch (pwmFuel s) rePWM s with
  | none =>
    rw [hm] at h
    simp at h
  | some caps => exact reSearch_rePWM_V _ s caps hm

/-- C4: the original claim fails on the code.  This line carries the full
structural skeleton — the mode keyword `CCM`, the three PWM integers
`790|1257|1257` and `rssi=0` — yet the parse fails, because the pattern
unconditionally requires the voltage/wattage/temperature sections too. -/
theorem c4_counterexample :
    strIn "CCM(H|L|Lm)= 790|1257|1257".data "CCM(H|L|Lm)= 790|1257|1257 s rssi=0".data ∧
    strIn "rssi=0".data "CCM(H|L|Lm)= 790|1257|1257 s rssi=0".data ∧
    parsePwm "CCM(H|L|Lm)= 790|1257|1257 s rssi=0".data = none := by
  decide

/-- C4 witness: a line that does parse contains the voltage marker. -/
theorem c4_witness : strIn "V=".data teleLineA :=
  c4_parse_requires_voltage teleLineA (by decide)

theorem logStage_proj (v : Bool) (pfx : List Char) (st : DevState) (rx rxB : List Char) :
    (logStage v pfx st rx rxB).pwm_state = st.pwm_state ∧
    (logStage v pfx st rx rxB).wifi_rssi = st.wifi_rssi ∧
    (logStage v pfx st rx rxB).temperatures = st.temperatures ∧
    (logStage v pfx st rx rxB).voltages = st.voltages ∧
    (logStage v pfx st rx rxB).ser_deque = st.ser_deque ∧
    (logStage v pfx st rx rxB).ser_tail = st.ser_tail ∧
    (logStage v pfx st rx rxB).callbackLog = st.callbackLog ∧
    (logStage v pfx st rx rxB).debugLog = st.debugLog := by
  unfold logStage
  split_ifs <;> exact ⟨rfl, rfl, rfl, rfl, rfl, rfl, rfl, rfl⟩

theorem genericHandle_noise (pfx : List Char) (st : DevState) (rx : List Char)
    (h1 : strIn "ina22x".data rx) (h2 : strIn "timeout".data rx) :
    genericHandle pfx st rx = st := by
  unfold genericHandle
  rw [if_pos ⟨h1, h2⟩]

theorem teleStage_noise_proj (pfx : List Char) (st1 : DevState) (rx : List Char)
    (h1 : strIn "ina22x".data rx) (h2 : strIn "timeout".data rx) :
    (teleStage pfx st1 rx).ser_deque = st1.ser_deque ∧
    (teleStage pfx st1 rx).ser_tail = st1.ser_tail ∧
    (teleStage pfx st1 rx).callbackLog = st1.callbackLog := by
  unfold teleStage
  cases hp : parsePwm rx with
  | some t =>
    dsimp only
    by_cases hpw : (teleUpdate st1 t).pwm_state ≠ t.pwm
    · rw [if_pos hpw, genericHandle_noise pfx _ rx h1 h2]
      exact ⟨rfl, rfl, rfl⟩
    · rw [if_neg hpw]
      exact ⟨rfl, rfl, rfl⟩
  | none =>
    dsimp only
    rw [genericHandle_noise pfx st1 rx h1 h2]
    exact ⟨rfl, rfl, rfl⟩

/-- C8: a line containing both the sensor token `ina22x` and the word
`timeout` is dropped entirely by the reader loop — it is never appended
to the consuming queue or the replay ring and never passed to the push
callback, whatever the rest of the line, the verbosity flag and the
current device state are. -/
theorem c8_noise_suppressed (v : Bool) (pfx : List Char) (st : DevState) (rxB : List Char)
    (h1 : strIn "ina22x".data rxB) (h2 : strIn "timeout".data rxB) :
    (processLine v pfx st rxB).ser_deque = st.ser_deque ∧
    (processLine v pfx st rxB).ser_tail = st.ser_tail ∧
    (processLine v pfx st rxB).callbackLog = st.callbackLog := by
  have h1s : strIn "ina22x".data (pyStrip rxB) :=
    strIn_pyStrip (by decide) (by decide) h1
  have h2s : strIn "timeout".data (pyStrip rxB) :=
    strIn_pyStrip (by decide) (by decide) h2
  unfold processLine
  by_cases hrx : pyStrip rxB = []
  · rw [if_pos hrx]
    exact ⟨rfl, rfl, rfl⟩
  · rw [if_neg hrx]
    have hL := logStage_proj v pfx st (pyStrip rxB) rxB
    have hT := teleStage_noise_proj pfx (logStage v pfx st (pyStrip rxB) rxB)
      (pyStrip rxB) h1s h2s
    exact ⟨hT.1.trans hL.2.2.2.2.1, hT.2.1.trans hL.2.2.2.2.2.1,
      hT.2.2.trans hL.2.2.2.2.2.2.1⟩

/-- C8 witness: a concrete noisy line leaves the sinks of a fresh device
state untouched. -/
theorem c8_witness :
    (processLine false [] initialDevState "ina22x sensor timeout".data).ser_deque = [] ∧
    (processLine false [] initialDevState "ina22x sensor timeout".data).ser_tail = [] ∧
    (processLine false [] initialDevState "ina22x sensor timeout".data).callbackLog = [] :=
  c8_noise_suppressed false [] initialDevState "ina22x sensor timeout".data
    (by decide) (by decide)

/-- C2 (amended): a telemetry line whose PWM fields equal the current
device state refreshes voltages/temperatures but is forwarded to none of
queue/ring/callback and leaves the PWM state untouched; a telemetry line
whose PWM fields differ commits the new PWM snapshot and is forwarded to
queue, ring and callback — unless the line also carries the
`ina22x`/`timeout` noise tokens, in which case the PWM state is still
committed but the line is suppressed (the noise check of fugu.py line
156 runs after the telemetry commit). -/
theorem c2_change_detection (v : Bool) (pfx : List Char) (st : DevState) (rxB : List Char)
    (t : Telemetry) (hp : parsePwm (pyStrip rxB) = some t) :
    (t.pwm = st.pwm_state →
      (processLine v pfx st rxB).ser_deque = st.ser_deque ∧
      (processLine v pfx st rxB).ser_tail = st.ser_tail ∧
      (processLine v pfx st rxB).callbackLog = st.callbackLog ∧
      (processLine v pfx st rxB).voltages = [t.vin, t.vout] ∧
      (processLine v pfx st rxB).temperatures = [t.tmp_ntc, t.tmp_mcu] ∧
      (processLine v pfx st rxB).pwm_state = st.pwm_state) ∧
    (t.pwm ≠ st.pwm_state →
      ¬ (strIn "ina22x".data (pyStrip rxB) ∧ strIn "timeout".data (pyStrip rxB)) →
      (processLine v pfx st rxB).pwm_state = t.pwm ∧
      (processLine v pfx st rxB).ser_deque = st.ser_deque ++ [pyStrip rxB] ∧
      (processLine v pfx st rxB).ser_tail = tailAppend st.ser_tail (pyStrip rxB) ∧
      (processLine v pfx st rxB).callbackLog = st.callbackLog ++ [pyStrip rxB] ∧
      (processLine v pfx st rxB).voltages = [t.vin, t.vout] ∧
      (processLine v pfx st rxB).temperatures = [t.tmp_ntc, t.tmp_mcu]) := by
  have hrx : pyStrip rxB ≠ [] := by
    intro he
    rw [he] at hp
    have hnone : parsePwm ([] : List Char) = none := by decide
    rw [hnone] at hp
    exact Option.noConfusion hp
  have hL := logStage_proj v pfx st (pyStrip rxB) rxB
  unfold processLine
  rw [if_neg hrx]
  unfold teleStage
  rw [hp]
  dsimp only
  constructor
  · intro heq
    have hpw : ¬ ((teleUpdate (logStage v pfx st (pyStrip rxB) rxB) t).pwm_state ≠ t.pwm) := by
      show ¬ ((logStage v pfx st (pyStrip rxB) rxB).pwm_state ≠ t.pwm)
      rw [hL.1, ← heq]
      exact not_not_intro rfl
    rw [if_neg hpw]
    exact ⟨hL.2.2.2.2.1, hL.2.2.2.2.2.1, hL.2.2.2.2.2.2.1, rfl, rfl, hL.1⟩
  · intro hne hnoise
    have hpw : (teleUpdate (logStage v pfx st (pyStrip rxB) rxB) t).pwm_state ≠ t.pwm := by
      show (logStage v pfx st (pyStrip rxB) rxB).pwm_state ≠ t.pwm
      rw [hL.1]
      exact Ne.symm hne
    rw [if_pos hpw]
    unfold genericHandle
    rw [if_neg hnoise]
    refine ⟨rfl, ?_, ?_, ?_, rfl, rfl⟩
    · show (logStage v pfx st (pyStrip rxB) rxB).ser_deque ++ [pyStrip rxB]
          = st.ser_deque ++ [pyStrip rxB]
      rw [hL.2.2.2.2.1]
    · show tailAppend (logStage v pfx st (pyStrip rxB) rxB).ser_tail (pyStrip rxB)
          = tailAppend st.ser_tail (pyStrip rxB)
      rw [hL.2.2.2.2.2.1]
    · show (logStage v pfx st (pyStrip rxB) rxB).callbackLog ++ [pyStrip rxB]
          = st.callbackLog ++ [pyStrip rxB]
      rw [hL.2.2.2.2.2.2.1]

set_option maxRecDepth 100000 in
/-- C2: the original claim's second half fails on the code.  This line is
well-formed telemetry whose PWM fields differ from the fresh device
state, yet nothing is appended to the queue, the ring or the callback
log, because it also carries `ina22x` and `timeout` and the noise check
runs after the telemetry commit falls through. -/
theorem c2_counterexample :
    parsePwm (pyStrip noiseTeleLine) = some teleSnapA ∧
    teleSnapA.pwm ≠ initialDevState.pwm_state ∧
    (processLine false [] initialDevState noiseTeleLine).ser_deque = [] ∧
    (processLine false [] initialDevState noiseTeleLine).ser_tail = [] ∧
    (processLine false [] initialDevState noiseTeleLine).callbackLog = [] := by
  decide

set_option maxRecDepth 100000 in
/-- C2 witness: a same-PWM heartbeat refreshes voltages without
forwarding; a changed-PWM clean line is forwarded and commits the new
PWM state. -/
theorem c2_witness :
    (processLine false [] devA teleLineB).ser_deque = devA.ser_deque ∧
    (processLine false [] devA teleLineB).voltages = ["9".data, "8".data] ∧
    (processLine false [] initialDevState teleLineA).ser_deque
        = initialDevState.ser_deque ++ [pyStrip teleLineA] ∧
    (processLine false [] initialDevState teleLineA).pwm_state = teleSnapA.pwm := by
  have hB := c2_change_detection false [] devA teleLineB teleSnapB (by decide)
  have hA := c2_change_detection false [] initialDevState teleLineA teleSnapA (by decide)
  exact ⟨(hB.1 (by decide)).1, (hB.1 (by decide)).2.2.2.1,
    (hA.2 (by decide) (by decide)).2.1, (hA.2 (by decide) (by decide)).1⟩

theorem reachesGeneric_congr (st st1 : DevState) (rx : List Char)
    (h : st1.pwm_state = st.pwm_state) : reachesGeneric st1 rx = reachesGeneric st rx := by
  unfold reachesGeneric
  rw [h]

theorem teleStage_logs (pfx : List Char) (st1 : DevState) (rx : List Char) :
    (teleStage pfx st1 rx).warningLog = st1.warningLog ∧
    (teleStage pfx st1 rx).printLog = st1.printLog ∧
    (teleStage pfx st1 rx).debugLog = st1.debugLog ++
      (if reachesGeneric st1 rx = true
       then ["  ".data ++ pfx ++ "  FUGU: ".data ++ rx] else []) := by
  unfold teleStage reachesGeneric
  cases hp : parsePwm rx with
  | some t =>
    dsimp only
    by_cases hpw : (teleUpdate st1 t).pwm_state ≠ t.pwm
    · have hpw2 : st1.pwm_state ≠ t.pwm := hpw
      rw [if_pos hpw]
      by_cases hnoise : strIn "ina22x".data rx ∧ strIn "timeout".data rx
      · rw [genericHandle_noise _ _ _ hnoise.1 hnoise.2]
        refine ⟨rfl, rfl, ?_⟩
        rw [if_neg (by simp [hnoise.1, hnoise.2]), List.append_nil]
        rfl
      · unfold genericHandle
        rw [if_neg hnoise]
        refine ⟨rfl, rfl, ?_⟩
        rw [if_pos (by simp [hpw2]; tauto)]
        rfl
    · have hpw2 : ¬ st1.pwm_state ≠ t.pwm := hpw
      rw [if_neg hpw]
      refine ⟨rfl, rfl, ?_⟩
      rw [if_neg (by simp [hpw2]), List.append_nil]
      rfl
  | none =>
    dsimp only
    by_cases hnoise : strIn "ina22x".data rx ∧ strIn "timeout".data rx
    · rw [genericHandle_noise _ _ _ hnoise.1 hnoise.2]
      refine ⟨rfl, rfl, ?_⟩
      rw [if_neg (by simp [hnoise.1, hnoise.2]), List.append_nil]
    · unfold genericHandle
      rw [if_neg hnoise]
      refine ⟨rfl, rfl, ?_⟩
      rw [if_pos (by simp; tauto)]

/-- C7 (amended): severity classification of a non-empty received line.
With the verbose flag unset, the line is emitted at warning severity
exactly when it carries an alarm keyword or an ANSI warning/error colour
marker, and nothing is printed; with the verbose flag set, every
non-empty line is printed verbatim and nothing is emitted at warning
severity (the warning branch lives in the `else` of `if self.verbose`).
A debug-severity record is emitted exactly for the lines that reach
generic handling — telemetry heartbeats with unchanged PWM fields and
`ina22x`/`timeout` noise lines are not debug-logged. -/
theorem c7_severity (v : Bool) (pfx : List Char) (st : DevState) (rxB : List Char)
    (hrx : pyStrip rxB ≠ []) :
    (v = true →
      (processLine v pfx st rxB).warningLog = st.warningLog ∧
      (processLine v pfx st rxB).printLog = st.printLog ++ [pfx ++ pyStrip rxB]) ∧
    (v = false → isAlarm (pyStrip rxB) rxB = true →
      (processLine v pfx st rxB).warningLog
          = st.warningLog ++ [pfx ++ "Ser: ".data ++ pyStrip rxB] ∧
      (processLine v pfx st rxB).printLog = st.printLog) ∧
    (v = false → isAlarm (pyStrip rxB) rxB = false →
      (processLine v pfx st rxB).warningLog = st.warningLog ∧
      (processLine v pfx st rxB).printLog = st.printLog) ∧
    (reachesGeneric st (pyStrip rxB) = true →
      (processLine v pfx st rxB).debugLog
          = st.debugLog ++ ["  ".data ++ pfx ++ "  FUGU: ".data ++ pyStrip rxB]) ∧
    (reachesGeneric st (pyStrip rxB) = false →
      (processLine v pfx st rxB).debugLog = st.debugLog) := by
  unfold processLine
  rw [if_neg hrx]
  have hL := logStage_proj v pfx st (pyStrip rxB) rxB
  have hT := teleStage_logs pfx (logStage v pfx st (pyStrip rxB) rxB) (pyStrip rxB)
  have hRG := reachesGeneric_congr st (logStage v pfx st (pyStrip rxB) rxB) (pyStrip rxB) hL.1
  refine ⟨?_, ?_, ?_, ?_, ?_⟩
  · intro hv
    subst hv
    refine ⟨?_, ?_⟩
    · rw [hT.1]
      simp [logStage]
    · rw [hT.2.1]
      simp [logStage]
  · intro hv halarm
    subst hv
    refine ⟨?_, ?_⟩
    · rw [hT.1]
      simp [logStage, halarm]
    · rw [hT.2.1]
      simp [logStage, halarm]
  · intro hv halarm
    subst hv
    refine ⟨?_, ?_⟩
    · rw [hT.1]
      simp [logStage, halarm]
    · rw [hT.2.1]
      simp [logStage, halarm]
  · intro hg
    rw [hT.2.2, hRG, hg, if_pos rfl, hL.2.2.2.2.2.2.2]
  · intro hg
    rw [hT.2.2, hRG, hg]
    simp [hL.2.2.2.2.2.2.2]

/-- C7: the original claim fails on the code.  With the verbose flag set,
a line containing the alarm keyword `error` is printed verbatim and is
*not* emitted at warning severity — the warning branch is skipped
entirely when verbose is true. -/
theorem c7_counterexample :
    strIn "error".data "error abc".data ∧
    (processLine true [] initialDevState "error abc".data).warningLog = [] ∧
    (processLine true [] initialDevState "error abc".data).printLog = ["error abc".data] := by
  decide

/-- C7 witness: with verbose unset, an alarm line is warning-logged and a
non-telemetry line is debug-logged. -/
theorem c7_witness :
    (processLine false [] initialDevState "warn x".data).warningLog
        = [[] ++ "Ser: ".data ++ pyStrip "warn x".data] ∧
    (processLine false [] initialDevState "warn x".data).debugLog
        = ["  ".data ++ [] ++ "  FUGU: ".data ++ pyStrip "warn x".data] := by
  have h := c7_severity false [] initialDevState "warn x".data (by decide)
  exact ⟨(h.2.1 rfl (by decide)).1, h.2.2.2.1 (by decide)⟩

/-- C6 (amended): the config query scans the replay ring most-recent-first
with the anchored pattern `.+: Conf '<path>:<key>' = '<value>'`, so a
reply line is matched only when a non-empty prefix ending in `: `
precedes `Conf` (as the device's log lines have); with such lines present
the newest value is returned, and with no matching line the query returns
an absent result rather than raising. -/
theorem c6_conf_query :
    get_conf_value "net".data "ssid".data [confLinePre "home".data] = some "home".data ∧
    get_conf_value "net".data "ssid".data
        [confLinePre "old".data, confLinePre "new".data] = some "new".data ∧
    (∀ (file key : List Char) (tail : List (List Char)),
      (∀ l ∈ tail, reMatch (pwmFuel l) (confRE file key) l = none) →
      get_conf_value file key tail = none) := by
  refine ⟨by decide, by decide, ?_⟩
  intro file key tail h
  unfold get_conf_value
  apply List.findSome?_eq_none_iff.mpr
  intro l hl
  have hm := h l (List.mem_reverse.mp hl)
  rw [hm]

/-- C6: the original claim fails on the code.  A replay ring containing
exactly the quoted line `Conf '/littlefs/conf/net:ssid' = 'home'` yields
an absent result, not `home`, because the pattern requires one-or-more
characters and `: ` before `Conf`. -/
theorem c6_counterexample :
    confLineBare = "Conf ".data ++ [qc] ++ "/littlefs/conf/net:ssid".data ++ [qc]
        ++ " = ".data ++ [qc] ++ "home".data ++ [qc] ∧
    get_conf_value "net".data "ssid".data [confLineBare] = none := by
  exact ⟨rfl, by decide⟩

/-- C6 witness: the amended theorem's absent-result part at a concrete
non-matching ring. -/
theorem c6_witness :
    get_conf_value "net".data "ssid".data ["xy".data] = none :=
  c6_conf_query.2.2 "net".data "ssid".data ["xy".data] (by decide)
